import Mathlib

/-!
Shallow embedding of the analyte core of MassyTools
(`MassyTools/bin/analyte.py`): composition resolution from an analyte
name, mass/charge modifier application, isotopic-envelope calculation
(combinatorial expansion, tolerance-based greedy clustering,
abundance-based truncation) and spectrum-window extraction.

Numeric conventions: Python floats are modelled as exact rationals `ℚ`;
Python ints as `ℤ` (counts) resp. `ℕ` (indices).  Fallible Python code
(raised exceptions) is modelled with `Except PyErr`.
-/

/-- Exceptions that the embedded Python code can raise.
`emptySpectrum` is the `ValueError` raised by unpacking `zip(*data)` of a
zero-point spectrum in `inherit_data_subset` (the spec's taxonomy calls
this condition `EmptySpectrumError`). -/
inductive PyErr where
  | indexError
  | valueError
  | keyError
  | attributeError
  | emptySpectrum
  deriving DecidableEq, Repr

/-- One entry of the building-block table: monoisotopic mass and
elemental counts, as read by `analyte.py` from
`self.building_blocks[name]`. -/
structure Block where
  mass : ℚ
  carbons : ℤ
  hydrogens : ℤ
  nitrogens : ℤ
  oxygens : ℤ
  sulfurs : ℤ
  deriving DecidableEq, Repr

/-- The building-block table (a Python dict keyed by unit name; keys are
unique). -/
abbrev BlockTable := List (String × Block)

/-- `self.building_blocks[unit]` when it exists: the dict lookup of the
inner loop `for block in self.building_blocks.keys(): if unit == block`
(dict keys are unique, so at most one key matches). -/
def lookupBlock (blocks : BlockTable) (unit : String) : Option Block :=
  (blocks.find? (fun b => b.1 == unit)).map Prod.snd

/-- Grouping of consecutive characters by equality of `str.isalpha`,
i.e. `itertools.groupby(name, key=str.isalpha)`. -/
def groupRuns : List Char → List (List Char)
  | [] => []
  | c :: cs =>
    match groupRuns cs with
    | [] => [[c]]
    | [] :: gs => [c] :: [] :: gs
    | (d :: g) :: gs =>
      if c.isAlpha == d.isAlpha then (c :: d :: g) :: gs
      else [c] :: (d :: g) :: gs

/-- `units = ["".join(x) for _, x in itertools.groupby(self.name, key=str.isalpha)]`. -/
def splitUnits (name : String) : List String :=
  (groupRuns name.toList).map fun g => String.mk g

/-- Digit-run accumulator for Python `int()`: decimal digits, where an
underscore is allowed only between two digits. -/
def pyDigitsGo : List Char → ℕ → Option ℕ
  | [], acc => some acc
  | c :: cs, acc =>
    if c.isDigit then pyDigitsGo cs (acc * 10 + (c.toNat - 48))
    else if c = '_' then
      match cs with
      | [] => none
      | d :: _ => if d.isDigit then pyDigitsGo cs acc else none
    else none

/-- A nonempty decimal-digit run (Python `int()` body after the sign). -/
def pyNat : List Char → Option ℕ
  | [] => none
  | c :: cs => if c.isDigit then pyDigitsGo cs (c.toNat - 48) else none

/-- Surrounding-whitespace stripping on a character list (what Python
`int(str)` does to its argument before parsing). -/
def trimChars (l : List Char) : List Char :=
  ((l.dropWhile Char.isWhitespace).reverse.dropWhile Char.isWhitespace).reverse

/-- Python `int(s)` for decimal strings: optional surrounding
whitespace, optional single sign, then a nonempty digit run (with
underscores only between digits); `none` models the `ValueError`. -/
def pyInt (s : String) : Option ℤ :=
  match trimChars s.toList with
  | '+' :: rest => (pyNat rest).map fun n => (n : ℤ)
  | '-' :: rest => (pyNat rest).map fun n => -(n : ℤ)
  | rest => (pyNat rest).map fun n => (n : ℤ)

/-- The composition fields of an `Analyte`, exactly the attributes that
`calculate_isotopes` resets to zero (`total_number_elements` is
initialised but never incremented anywhere in the class). -/
structure Comp where
  mass : ℚ
  number_carbons : ℤ
  number_hydrogens : ℤ
  number_nitrogens : ℤ
  number_oxygens : ℤ
  number_sulfurs : ℤ
  number_sialic_acids : ℤ
  total_number_elements : ℤ
  total_number_units : ℤ
  deriving DecidableEq, Repr

/-- The all-zero composition written by the reset at the top of
`calculate_isotopes`. -/
def comp0 : Comp :=
  { mass := 0, number_carbons := 0, number_hydrogens := 0
    number_nitrogens := 0, number_oxygens := 0, number_sulfurs := 0
    number_sialic_acids := 0, total_number_elements := 0
    total_number_units := 0 }

/-- Loop body of `determine_total_number_of_elements`: iterate over the
enumerated `units` (remaining suffix plus current index), look the unit
up in the table, and on a match read `units[index+1]` (IndexError when
absent) and `int(units[index+1])` (ValueError when unparseable), then
accumulate mass, elemental counts, total units and — for unit `"S"` —
sialic acids. -/
def detGo (blocks : BlockTable) (units : List String) :
    List String → ℕ → Comp → Except PyErr Comp
  | [], _, c => .ok c
  | u :: rest, i, c =>
    match lookupBlock blocks u with
    | none => detGo blocks units rest (i + 1) c
    | some b =>
      match units[i + 1]? with
      | none => .error .indexError
      | some run =>
        match pyInt run with
        | none => .error .valueError
        | some n =>
          detGo blocks units rest (i + 1)
            { mass := c.mass + b.mass * (n : ℚ)
              number_carbons := c.number_carbons + b.carbons * n
              number_hydrogens := c.number_hydrogens + b.hydrogens * n
              number_nitrogens := c.number_nitrogens + b.nitrogens * n
              number_oxygens := c.number_oxygens + b.oxygens * n
              number_sulfurs := c.number_sulfurs + b.sulfurs * n
              number_sialic_acids :=
                c.number_sialic_acids + (if u = "S" then n else 0)
              total_number_elements := c.total_number_elements
              total_number_units := c.total_number_units + n }

/-- `Analyte.determine_total_number_of_elements` acting on the
composition fields. -/
def determine_total_number_of_elements (blocks : BlockTable)
    (name : String) (c : Comp) : Except PyErr Comp :=
  detGo blocks (splitUnits name) (splitUnits name) 0 c

/-- First pass of `attach_mass_modifiers`: every modifier other than
`"Per"` adds its block's mass and elemental counts once, unscaled
(a missing table entry is a `KeyError`). -/
def attachIndep (blocks : BlockTable) :
    List String → Comp → Except PyErr Comp
  | [], c => .ok c
  | m :: rest, c =>
    if m = "Per" then attachIndep blocks rest c
    else
      match lookupBlock blocks m with
      | none => .error .keyError
      | some b =>
        attachIndep blocks rest
          { c with
            mass := c.mass + b.mass
            number_carbons := c.number_carbons + b.carbons
            number_hydrogens := c.number_hydrogens + b.hydrogens
            number_nitrogens := c.number_nitrogens + b.nitrogens
            number_oxygens := c.number_oxygens + b.oxygens
            number_sulfurs := c.number_sulfurs + b.sulfurs }

/-- Second pass of `attach_mass_modifiers`: on the first `"Per"`
modifier the code evaluates
`self.number_oxygens - (self.total_number_of_units * 2 - 2) - 1 -
(1 * self.number_sialic_acids)`; the attribute written by
`calculate_isotopes` and `determine_total_number_of_elements` is
`total_number_units`, and `total_number_of_units` is never assigned
anywhere in the class, so the read raises `AttributeError` before any
scaling happens. -/
def attachPer : List String → Comp → Except PyErr Comp
  | [], c => .ok c
  | m :: rest, c =>
    if m = "Per" then .error .attributeError
    else attachPer rest c

/-- `Analyte.attach_mass_modifiers`: build
`total_modifiers = list(mass_modifiers) + [charge_carrier]`, run the
independent pass, then the permethylation pass. -/
def attach_mass_modifiers (blocks : BlockTable)
    (mass_modifiers : List String) (charge_carrier : String)
    (c : Comp) : Except PyErr Comp := do
  let total := mass_modifiers ++ [charge_carrier]
  let c1 ← attachIndep blocks total c
  attachPer total c1

/-- Modelled from the spec: `MassyTools.util.functions.
calculate_elemental_isotopic_pattern` is not under `src/` (only its
caller `analyte.py` is).  Spec §4.2: given the element's atom count `n`
and the isotope's natural abundance `p` and mass shift `delta`, the
distribution over `k = 0..n` has probability `C(n,k) p^k (1-p)^(n-k)`
and mass shift `k * delta`, yielding a list of
(mass-shift, probability) points in that order. -/
def calculate_elemental_isotopic_pattern (p delta : ℚ) (n : ℕ) :
    List (ℚ × ℚ) :=
  (List.range (n + 1)).map fun (k : ℕ) =>
    ((k : ℚ) * delta, (n.choose k : ℚ) * p ^ k * (1 - p) ^ (n - k))

/-- The `itertools.product` expansion of `calculate_analyte_isotopic_pattern`
(lines 132-136): every combination contributes
`(mass + sum of shifts, product of probabilities)`, rightmost factor
varying fastest. -/
def combineTotals (mass : ℚ)
    (cs hs ns os17 os18 ss33 ss34 ss36 : List (ℚ × ℚ)) : List (ℚ × ℚ) :=
  cs.flatMap fun i => hs.flatMap fun j => ns.flatMap fun k =>
  os17.flatMap fun l => os18.flatMap fun m => ss33.flatMap fun n =>
  ss34.flatMap fun o => ss36.flatMap fun p =>
    [(mass + i.1 + j.1 + k.1 + l.1 + m.1 + n.1 + o.1 + p.1,
      i.2 * j.2 * k.2 * l.2 * m.2 * n.2 * o.2 * p.2)]

/-- The inner absorption of the merge loop: the snapshot
`[d for d in totals if newdata[d]]` (taken after the seed was marked
consumed) filtered by `abs(k - kk) < epsilon`.  Duplicate occurrences of
a still-unconsumed pair both appear in the snapshot and are both
absorbed, exactly as in the Python inner loop (which tests only the mass
difference, not `newdata`, while iterating the snapshot). -/
def absorbedOf (totals consumed : List (ℚ × ℚ)) (k eps : ℚ) :
    List (ℚ × ℚ) :=
  (totals.filter fun d => decide (d ∉ consumed)).filter
    fun d => decide (|k - d.1| < eps)

/-- Outer merge loop (lines 139-151): walk `totals` in order; skip a
pair already consumed (`if not newdata[(k, v)]: continue`); otherwise
mark it consumed, absorb every unconsumed point within `epsilon` of the
seed mass, and emit `(sum(keys)/sum(values), sum(values))` with
`keys = [k*v, kk*vv, ...]`, `values = [v, vv, ...]`. -/
def mergeGo (eps : ℚ) (totals : List (ℚ × ℚ)) :
    List (ℚ × ℚ) → List (ℚ × ℚ) → List (ℚ × ℚ)
  | [], _ => []
  | (k, v) :: rest, consumed =>
    if (k, v) ∈ consumed then mergeGo eps totals rest consumed
    else
      let consumed1 := (k, v) :: consumed
      let absorbed := absorbedOf totals consumed1 k eps
      let keys := k * v :: absorbed.map fun d => d.1 * d.2
      let values := v :: absorbed.map fun d => d.2
      (keys.sum / values.sum, values.sum) ::
        mergeGo eps totals rest (absorbed ++ consumed1)

/-- The merge step of `calculate_analyte_isotopic_pattern`. -/
def mergeTotals (totals : List (ℚ × ℚ)) (eps : ℚ) : List (ℚ × ℚ) :=
  mergeGo eps totals totals []

/-- `sorted(intermediate_results, key=itemgetter(1), reverse=True)`:
Python's `sorted` is a stable sort; with `reverse=True` elements are
ordered by key descending and equal keys keep their original order,
which is exactly the stable insertion sort for `b.2 ≤ a.2`. -/
def sortDescBySnd (l : List (ℚ × ℚ)) : List (ℚ × ℚ) :=
  l.insertionSort fun a b => b.2 ≤ a.2

/-- `sorted(results, key=itemgetter(0))`: stable sort, mass
ascending. -/
def sortAscByFst (l : List (ℚ × ℚ)) : List (ℚ × ℚ) :=
  l.insertionSort fun a b => a.1 ≤ b.1

/-- Truncation loop (lines 156-162): append each result in order and
break once the running probability sum strictly exceeds
`min_total_contribution`. -/
def truncGo (threshold : ℚ) : List (ℚ × ℚ) → ℚ → List (ℚ × ℚ)
  | [], _ => []
  | r :: rest, acc =>
    r :: (if threshold < acc + r.2 then [] else truncGo threshold rest (acc + r.2))

/-- The truncation step applied to the descending-sorted cluster list. -/
def truncateResults (l : List (ℚ × ℚ)) (threshold : ℚ) : List (ℚ × ℚ) :=
  truncGo threshold l 0

/-- `Analyte.calculate_analyte_isotopic_pattern` as a function of the
composition fields and settings, returning the final
(exact mass, fraction) list stored on the analyte's isotopes.  The
eight per-element distributions use the hardcoded natural abundances
and mass shifts of lines 106-113; `Int.toNat` reflects that the spec
defines the distribution for non-negative atom counts. -/
def calculate_analyte_isotopic_pattern (c : Comp)
    (eps minContribution : ℚ) : List (ℚ × ℚ) :=
  let carbons := calculate_elemental_isotopic_pattern 0.0107 1.00335 c.number_carbons.toNat
  let hydrogens := calculate_elemental_isotopic_pattern 0.00012 1.00628 c.number_hydrogens.toNat
  let nitrogens := calculate_elemental_isotopic_pattern 0.00364 0.99703 c.number_nitrogens.toNat
  let oxygens17 := calculate_elemental_isotopic_pattern 0.00038 1.00422 c.number_oxygens.toNat
  let oxygens18 := calculate_elemental_isotopic_pattern 0.00205 2.00425 c.number_oxygens.toNat
  let sulfurs33 := calculate_elemental_isotopic_pattern 0.0076 0.99939 c.number_sulfurs.toNat
  let sulfurs34 := calculate_elemental_isotopic_pattern 0.0429 1.9958 c.number_sulfurs.toNat
  let sulfurs36 := calculate_elemental_isotopic_pattern 0.0002 3.99501 c.number_sulfurs.toNat
  let totals := combineTotals c.mass carbons hydrogens nitrogens
    oxygens17 oxygens18 sulfurs33 sulfurs34 sulfurs36
  sortAscByFst
    (truncateResults (sortDescBySnd (mergeTotals totals eps)) minContribution)

/-- The mutable state of an `Analyte` that the claims concern: the
composition fields plus the isotope list (an `Isotope` holds its
`exact_mass` and `fraction`, modelled as a pair). -/
structure AnalyteState where
  comp : Comp
  isotopes : List (ℚ × ℚ)
  deriving DecidableEq, Repr

/-- `Analyte.calculate_isotopes`: reset `mass` and every counter to
zero, then run name resolution, modifier attachment and the isotopic
pattern calculation, which appends the envelope to the (never cleared)
isotope list. -/
def calculate_isotopes (blocks : BlockTable)
    (mass_modifiers : List String) (charge_carrier : String)
    (name : String) (eps minContribution : ℚ)
    (s : AnalyteState) : Except PyErr AnalyteState := do
  let c1 ← determine_total_number_of_elements blocks name comp0
  let c2 ← attach_mass_modifiers blocks mass_modifiers charge_carrier c1
  .ok { comp := c2
        isotopes := s.isotopes ++
          calculate_analyte_isotopic_pattern c2 eps minContribution }

/-- `n`-fold repetition of `calculate_isotopes` on the same analyte
with the same settings and building blocks. -/
def calculate_isotopesN (blocks : BlockTable)
    (mass_modifiers : List String) (charge_carrier : String)
    (name : String) (eps minContribution : ℚ) :
    ℕ → AnalyteState → Except PyErr AnalyteState
  | 0, s => .ok s
  | n + 1, s => do
    let s1 ← calculate_isotopes blocks mass_modifiers charge_carrier
      name eps minContribution s
    calculate_isotopesN blocks mass_modifiers charge_carrier
      name eps minContribution n s1

/-- `bisect.bisect_left` on an ascending list: the number of entries
strictly below `x`, i.e. the first index whose value is `≥ x`
(the library's documented insertion-point contract, which the source
relies on for its sorted mass axis). -/
def bisect_left (l : List ℚ) (x : ℚ) : ℕ :=
  (l.takeWhile fun m => decide (m < x)).length

/-- `bisect.bisect_right` on an ascending list: the number of entries
`≤ x`, i.e. the first index whose value is `> x`. -/
def bisect_right (l : List ℚ) (x : ℚ) : ℕ :=
  (l.takeWhile fun m => decide (m ≤ x)).length

/-- `max(isotope.fraction for isotope in self.isotopes)`; `none` models
the `ValueError` that `max` raises on an empty sequence. -/
def maxFraction (isotopes : List (ℚ × ℚ)) : Option ℚ :=
  match isotopes.map Prod.snd with
  | [] => none
  | f :: fs => some (fs.foldl max f)

/-- The `center_mass` selection loop: the exact mass of the last
isotope whose fraction equals the maximum fraction (later matches
overwrite earlier ones). -/
def centerMass (isotopes : List (ℚ × ℚ)) (mf : ℚ) : Option ℚ :=
  ((isotopes.filter fun i => decide (i.2 = mf)).getLast?).map Prod.fst

/-- `Analyte.inherit_data_subset`: unpack the spectrum (raising on an
empty spectrum), locate the dominant isotope mass, and slice the
spectrum between `bisect_left(x, center - mass_window)` and
`bisect_right(x, center + mass_window)`. -/
def inherit_data_subset (spectrum isotopes : List (ℚ × ℚ))
    (mass_window : ℚ) : Except PyErr (List (ℚ × ℚ)) :=
  if spectrum.isEmpty then .error .emptySpectrum
  else
    match maxFraction isotopes with
    | none => .error .valueError
    | some mf =>
      match centerMass isotopes mf with
      | none => .error .valueError
      | some center =>
        let xs := spectrum.map Prod.fst
        let lb := bisect_left xs (center - mass_window)
        let rb := bisect_right xs (center + mass_window)
        .ok ((spectrum.drop lb).take (rb - lb))

/-- First-occurrence deduplication with an explicit seen-set, the shape
the merge loop degenerates to when `epsilon ≤ 0`. -/
def dedupFirstGo : List (ℚ × ℚ) → List (ℚ × ℚ) → List (ℚ × ℚ)
  | [], _ => []
  | x :: rest, seen =>
    if x ∈ seen then dedupFirstGo rest seen
    else x :: dedupFirstGo rest (x :: seen)

/-- Sum of the probability components of a (mass, probability) list. -/
def sumSnd (l : List (ℚ × ℚ)) : ℚ := (l.map Prod.snd).sum

/-- Running probability sum over the first `n` entries. -/
def prefixProbSum (l : List (ℚ × ℚ)) (n : ℕ) : ℚ := sumSnd (l.take n)

/-- One matched-unit accumulation of `determine_total_number_of_elements`:
add the block's mass and elemental counts `count`-fold, add `count` to the
unit total, and — for unit `"S"` — to the sialic-acid count. -/
def accumUnit (c : Comp) (b : Block) (u : String) (n : ℤ) : Comp :=
  { mass := c.mass + b.mass * (n : ℚ)
    number_carbons := c.number_carbons + b.carbons * n
    number_hydrogens := c.number_hydrogens + b.hydrogens * n
    number_nitrogens := c.number_nitrogens + b.nitrogens * n
    number_oxygens := c.number_oxygens + b.oxygens * n
    number_sulfurs := c.number_sulfurs + b.sulfurs * n
    number_sialic_acids := c.number_sialic_acids + (if u = "S" then n else 0)
    total_number_elements := c.total_number_elements
    total_number_units := c.total_number_units + n }

/-- The amended C2 contract written as a recursion over the run list,
free of the source's index bookkeeping: a run that matches a building
block reads the immediately following run as its count (IndexError when
there is no following run, ValueError when it does not parse as an
integer) and accumulates; a run matching no block — in particular every
unknown letter run — is passed over, contributing nothing.  (Note the
following run is only read as the count, not skipped: the loop still
visits it as a unit of its own, exactly as in the source.) -/
def detSpec (blocks : BlockTable) : List String → Comp → Except PyErr Comp
  | [], c => .ok c
  | u :: rest, c =>
    match lookupBlock blocks u with
    | none => detSpec blocks rest c
    | some b =>
      match rest with
      | [] => .error .indexError
      | nxt :: _ =>
        match pyInt nxt with
        | none => .error .valueError
        | some n => detSpec blocks rest (accumUnit c b u n)

/-- Every run in the list that matches a building block is immediately
followed by a run that parses as an integer (so parsing cannot fail
while processing these runs). -/
def matchedRunsFed (blocks : BlockTable) : List String → Bool
  | [] => true
  | u :: rest =>
    (match lookupBlock blocks u with
     | none => true
     | some _ =>
       match rest with
       | [] => false
       | nxt :: _ => (pyInt nxt).isSome) && matchedRunsFed blocks rest

/-- `c` is a cluster emitted by the merge loop with consumed set
`consumed`: its members are pairs of `totals` not yet consumed, all
within `eps` of the cluster's seed mass, its mass is their
probability-weighted mean and its probability their probability sum. -/
def IsCluster (eps : ℚ) (totals consumed : List (ℚ × ℚ)) (c : ℚ × ℚ) : Prop :=
  ∃ ms : List (ℚ × ℚ), ms ≠ [] ∧
    (∀ m ∈ ms, m ∈ totals) ∧ (∀ m ∈ ms, m ∉ consumed) ∧
    (∃ k0 : ℚ, ∀ m ∈ ms, |k0 - m.1| < eps) ∧
    c.1 = (ms.map fun d => d.1 * d.2).sum / (ms.map Prod.snd).sum ∧
    c.2 = (ms.map Prod.snd).sum

/-! ## Concrete inputs used by the counterexamples and witnesses -/

/-- The combination list of the counterexamples: a genuine
`itertools.product` enumeration of two two-point distributions (the
remaining six channels trivial), which yields the duplicated pair
`(1, 1/4)`. -/
def totalsDup : List (ℚ × ℚ) :=
  combineTotals 0 [(0, 1/2), (1, 1/2)] [(0, 1/2), (1, 1/2)]
    [(0, 1)] [(0, 1)] [(0, 1)] [(0, 1)] [(0, 1)] [(0, 1)]

/-- A test building block carrying only a mass. -/
def massOnlyBlock : Block :=
  { mass := 2, carbons := 0, hydrogens := 0, nitrogens := 0
    oxygens := 0, sulfurs := 0 }

/-- A composition of five carbon atoms and nothing else. -/
def fiveCarbonComp : Comp := { comp0 with number_carbons := 5 }

/-- The epsilon of the C5 counterexample: `1.99 × 1.00335`, slightly
below twice the ¹³C mass shift, so consecutive isotopologues pair up
into clusters whose weighted-mean masses end up closer than epsilon. -/
def epsC5 : ℚ := 1.9966665

/-- The truncation threshold of the C5 counterexample. -/
def minC5 : ℚ := 0.999

/-- The composition reached by the C10 witness: reset, parse `"H1"`
(one `H` unit of mass 2), then attach the charge carrier `"H"`. -/
def compH1 : Comp :=
  { mass := 4, number_carbons := 0, number_hydrogens := 0
    number_nitrogens := 0, number_oxygens := 0, number_sulfurs := 0
    number_sialic_acids := 0, total_number_elements := 0
    total_number_units := 1 }

/-- Totality of the mass-ascending comparison used by the final sort. -/
instance fstLeTotal : IsTotal (ℚ × ℚ) (fun a b => a.1 ≤ b.1) :=
  ⟨fun a b => le_total a.1 b.1⟩

/-- Transitivity of the mass-ascending comparison used by the final sort. -/
instance fstLeTrans : IsTrans (ℚ × ℚ) (fun a b => a.1 ≤ b.1) :=
  ⟨fun _ _ _ h h2 => le_trans h h2⟩

/-! ## Truncation: generic lemmas about the accumulate-and-break loop -/

theorem prefixProbSum_zero (l : List (ℚ × ℚ)) : prefixProbSum l 0 = 0 := by
  simp [prefixProbSum, sumSnd]

theorem prefixProbSum_nil (n : ℕ) : prefixProbSum [] n = 0 := by
  simp [prefixProbSum, sumSnd]

theorem prefixProbSum_cons_succ (r : ℚ × ℚ) (rest : List (ℚ × ℚ)) (n : ℕ) :
    prefixProbSum (r :: rest) (n + 1) = r.2 + prefixProbSum rest n := by
  simp [prefixProbSum, sumSnd]

theorem truncGo_all (threshold : ℚ) (rs : List (ℚ × ℚ)) :
    ∀ acc, (∀ n, acc + prefixProbSum rs n ≤ threshold) →
      truncGo threshold rs acc = rs := by
  induction rs with
  | nil => intro acc _; rfl
  | cons r rest ih =>
    intro acc h
    have h1 : acc + r.2 ≤ threshold := by
      have := h 1
      rw [prefixProbSum_cons_succ, prefixProbSum_zero] at this
      linarith
    have hrec : truncGo threshold rest (acc + r.2) = rest := by
      refine ih (acc + r.2) fun n => ?_
      have := h (n + 1)
      rw [prefixProbSum_cons_succ] at this
      linarith
    simp [truncGo, if_neg (not_lt.mpr h1), hrec]

theorem truncGo_take (threshold : ℚ) :
    ∀ (rs : List (ℚ × ℚ)) (acc : ℚ) (k : ℕ), 1 ≤ k →
      threshold < acc + prefixProbSum rs k →
      (∀ j < k, acc + prefixProbSum rs j ≤ threshold) →
      truncGo threshold rs acc = rs.take k := by
  intro rs
  induction rs with
  | nil =>
    intro acc k hk hcross hmin
    rw [prefixProbSum_nil] at hcross
    have := hmin 0 hk
    rw [prefixProbSum_zero] at this
    linarith
  | cons r rest ih =>
    intro acc k hk hcross hmin
    match k with
    | 1 =>
      rw [prefixProbSum_cons_succ, prefixProbSum_zero] at hcross
      have hc : threshold < acc + r.2 := by linarith
      simp [truncGo, if_pos hc]
    | k + 2 =>
      have h1 : acc + r.2 ≤ threshold := by
        have := hmin 1 (by omega)
        rw [prefixProbSum_cons_succ, prefixProbSum_zero] at this
        linarith
      have hrec : truncGo threshold rest (acc + r.2) = rest.take (k + 1) := by
        refine ih (acc + r.2) (k + 1) (by omega) ?_ ?_
        · rw [prefixProbSum_cons_succ] at hcross; linarith
        · intro j hj
          have := hmin (j + 1) (by omega)
          rw [prefixProbSum_cons_succ] at this
          linarith
      simp [truncGo, if_neg (not_lt.mpr h1), hrec]

/-- C3: after sorting clusters by probability descending, the retained
result set is exactly the shortest prefix of that order whose
probability sum strictly exceeds `min_total_contribution` (the crossing
cluster is included and every shorter prefix is at or below the
threshold); when no prefix exceeds the threshold, every cluster is
retained.  (`k ≥ 1` reflects that `min_total_contribution` is
non-negative — the spec constrains it to `(0,1]` — so the empty prefix
never crosses.) -/
theorem claim_C3_shortest_prefix_truncation (cl : List (ℚ × ℚ)) (threshold : ℚ) :
    ((∀ n, prefixProbSum (sortDescBySnd cl) n ≤ threshold) →
      truncateResults (sortDescBySnd cl) threshold = sortDescBySnd cl) ∧
    (∀ k, 1 ≤ k → threshold < prefixProbSum (sortDescBySnd cl) k →
      (∀ j < k, prefixProbSum (sortDescBySnd cl) j ≤ threshold) →
      truncateResults (sortDescBySnd cl) threshold = (sortDescBySnd cl).take k) := by
  constructor
  · intro h
    exact truncGo_all threshold _ 0 fun n => by
      rw [zero_add]; exact h n
  · intro k hk hcross hmin
    exact truncGo_take threshold _ 0 k hk (by rw [zero_add]; exact hcross)
      fun j hj => by rw [zero_add]; exact hmin j hj

/-- Witness for C3 at a concrete input: clusters with probabilities
1/2, 1/4, 1/4 and threshold 6/10 retain exactly the two-cluster
prefix. -/
theorem claim_C3_shortest_prefix_truncation_witness :
    truncateResults (sortDescBySnd [(1, 1/2), (2, 1/4), (3, 1/4)]) (6/10) =
      (sortDescBySnd [(1, 1/2), (2, 1/4), (3, 1/4)]).take 2 := by
  refine (claim_C3_shortest_prefix_truncation [(1, 1/2), (2, 1/4), (3, 1/4)] (6/10)).2
    2 (by norm_num) ?_ ?_
  · norm_num [sortDescBySnd, List.insertionSort, List.orderedInsert,
      prefixProbSum, sumSnd]
  · intro j hj
    interval_cases j <;>
      norm_num [sortDescBySnd, List.insertionSort, List.orderedInsert,
        prefixProbSum, sumSnd]

/-! ## Merge: behaviour for `epsilon ≤ 0` and duplicate handling -/

theorem absorbedOf_eps_nonpos (totals consumed : List (ℚ × ℚ)) (k eps : ℚ)
    (h : eps ≤ 0) : absorbedOf totals consumed k eps = [] := by
  refine List.filter_eq_nil_iff.mpr fun d _ => ?_
  simp only [decide_eq_true_eq]
  exact not_lt.mpr (h.trans (abs_nonneg _))

theorem mergeGo_eps_nonpos (eps : ℚ) (totals : List (ℚ × ℚ)) (heps : eps ≤ 0) :
    ∀ (rest consumed : List (ℚ × ℚ)), (∀ x ∈ rest, x.2 ≠ 0) →
      mergeGo eps totals rest consumed = dedupFirstGo rest consumed := by
  intro rest
  induction rest with
  | nil => intro consumed _; rfl
  | cons x rest ih =>
    intro consumed hx
    obtain ⟨k, v⟩ := x
    have hv : v ≠ 0 := hx (k, v) (List.mem_cons_self _ _)
    have hrest : ∀ y ∈ rest, y.2 ≠ 0 := fun y hy => hx y (List.mem_cons_of_mem _ hy)
    by_cases hc : (k, v) ∈ consumed
    · simp only [mergeGo, dedupFirstGo, if_pos hc]
      exact ih consumed hrest
    · simp only [mergeGo, dedupFirstGo, if_neg hc,
        absorbedOf_eps_nonpos totals _ k eps heps, List.map_nil,
        List.sum_cons, List.sum_nil, add_zero, List.nil_append]
      rw [mul_div_assoc, div_self hv, mul_one]
      rw [ih ((k, v) :: consumed) hrest]

theorem mergeTotals_eps_nonpos (totals : List (ℚ × ℚ)) (eps : ℚ)
    (heps : eps ≤ 0) (hnz : ∀ x ∈ totals, x.2 ≠ 0) :
    mergeTotals totals eps = dedupFirstGo totals [] :=
  mergeGo_eps_nonpos eps totals heps totals [] hnz

theorem totalsDup_eval : totalsDup = [(0, 1/4), (1, 1/4), (1, 1/4), (2, 1/4)] := by
  norm_num [totalsDup, combineTotals]

/-- Counterexample to C4 as stated: a Cartesian-product combination
list with a duplicated (mass, probability) pair has four combinations
but only three clusters at `epsilon = 0`, so not every combination
becomes its own cluster. -/
theorem claim_C4_counterexample :
    totalsDup.length = 4 ∧ (mergeTotals totalsDup 0).length = 3 := by
  rw [totalsDup_eval]
  refine ⟨rfl, ?_⟩
  norm_num [mergeTotals, mergeGo, absorbedOf, abs]

/-- C4 as amended: when `epsilon ≤ 0` the merge absorbs nothing — the
clusters are exactly the distinct (mass, probability) combinations in
first-occurrence order, each of size 1 with cluster mass equal to the
combination's mass and cluster probability equal to the combination's
probability; occurrences beyond the first of a duplicated pair are
dropped rather than forming clusters of their own. -/
theorem claim_C4_amended (totals : List (ℚ × ℚ)) (eps : ℚ)
    (heps : eps ≤ 0) (hpos : ∀ x ∈ totals, 0 < x.2) :
    mergeTotals totals eps = dedupFirstGo totals [] :=
  mergeTotals_eps_nonpos totals eps heps fun x hx => (hpos x hx).ne'

/-- Witness for C4 as amended, at the concrete product enumeration
`totalsDup` with `epsilon = 0`. -/
theorem claim_C4_amended_witness :
    mergeTotals totalsDup 0 = dedupFirstGo totalsDup [] := by
  refine claim_C4_amended totalsDup 0 le_rfl ?_
  rw [totalsDup_eval]
  intro x hx
  simp only [List.mem_cons, List.not_mem_nil, or_false] at hx
  rcases hx with h | h | h | h <;> rw [h] <;> norm_num

/-! ## Duplicate occurrences and the cluster probability sum (C9) -/

theorem sumSnd_nil : sumSnd [] = 0 := rfl

theorem sumSnd_cons (x : ℚ × ℚ) (l : List (ℚ × ℚ)) :
    sumSnd (x :: l) = x.2 + sumSnd l := by
  simp [sumSnd]

theorem sumSnd_dedupFirstGo_le :
    ∀ (l seen : List (ℚ × ℚ)), (∀ x ∈ l, 0 ≤ x.2) →
      sumSnd (dedupFirstGo l seen) ≤ sumSnd l := by
  intro l
  induction l with
  | nil => intro seen _; simp [dedupFirstGo]
  | cons x rest ih =>
    intro seen hx
    have hx2 : 0 ≤ x.2 := hx x (List.mem_cons_self _ _)
    have hrest : ∀ y ∈ rest, 0 ≤ y.2 := fun y hy => hx y (List.mem_cons_of_mem _ hy)
    by_cases hc : x ∈ seen
    · rw [dedupFirstGo, if_pos hc, sumSnd_cons]
      have := ih seen hrest
      linarith
    · rw [dedupFirstGo, if_neg hc, sumSnd_cons, sumSnd_cons]
      have := ih (x :: seen) hrest
      linarith

theorem sumSnd_dedupFirstGo_lt :
    ∀ (l seen : List (ℚ × ℚ)), (∀ x ∈ l, 0 < x.2) →
      (¬ l.Nodup ∨ ∃ x ∈ l, x ∈ seen) →
      sumSnd (dedupFirstGo l seen) < sumSnd l := by
  intro l
  induction l with
  | nil =>
    intro seen _ h
    rcases h with h | ⟨x, hx, _⟩
    · exact absurd List.nodup_nil h
    · exact absurd hx (List.not_mem_nil x)
  | cons x rest ih =>
    intro seen hpos h
    have hx2 : 0 < x.2 := hpos x (List.mem_cons_self _ _)
    have hrest : ∀ y ∈ rest, 0 < y.2 := fun y hy => hpos y (List.mem_cons_of_mem _ hy)
    by_cases hc : x ∈ seen
    · rw [dedupFirstGo, if_pos hc, sumSnd_cons]
      have := sumSnd_dedupFirstGo_le rest seen fun y hy => (hrest y hy).le
      linarith
    · rw [dedupFirstGo, if_neg hc, sumSnd_cons, sumSnd_cons]
      have hnext : ¬ rest.Nodup ∨ ∃ y ∈ rest, y ∈ x :: seen := by
        rcases h with h | ⟨y, hy, hyseen⟩
        · rw [List.nodup_cons] at h
          push_neg at h
          by_cases hxr : x ∈ rest
          · exact Or.inr ⟨x, hxr, List.mem_cons_self _ _⟩
          · exact Or.inl (h hxr)
        · rcases List.mem_cons.mp hy with rfl | hyr
          · exact absurd hyseen hc
          · exact Or.inr ⟨y, hyr, List.mem_cons_of_mem _ hyseen⟩
      have := ih (x :: seen) hrest hnext
      linarith

/-- Counterexample to C9 as stated: `totalsDup` contains a duplicated
pair, yet with `epsilon = 2` the duplicate occurrences are absorbed into
the first cluster (each occurrence counted once), so the cluster
probability sum equals — is not strictly less than — the enumerated
probability sum. -/
theorem claim_C9_counterexample :
    ¬ totalsDup.Nodup ∧ sumSnd (mergeTotals totalsDup 2) = sumSnd totalsDup := by
  constructor
  · rw [totalsDup_eval]
    intro h
    have := List.Nodup.not_mem (List.Nodup.of_cons h)
    simp at this
  · rw [totalsDup_eval]
    norm_num [mergeTotals, mergeGo, absorbedOf, abs, sumSnd]

/-- C9 as amended: a duplicate occurrence is dropped only when the merge
loop reaches it after its pair was already consumed; when `epsilon ≤ 0`
(no absorption) this happens to every occurrence beyond the first, and
then — all probabilities being positive — the sum of all cluster
probabilities is strictly less than the sum of the probabilities of all
enumerated combinations.  (With positive `epsilon` an absorbed duplicate
occurrence is counted once per occurrence and the two sums can be
equal.) -/
theorem claim_C9_amended (totals : List (ℚ × ℚ)) (eps : ℚ)
    (heps : eps ≤ 0) (hpos : ∀ x ∈ totals, 0 < x.2)
    (hdup : ¬ totals.Nodup) :
    sumSnd (mergeTotals totals eps) < sumSnd totals := by
  rw [mergeTotals_eps_nonpos totals eps heps fun x hx => (hpos x hx).ne']
  exact sumSnd_dedupFirstGo_lt totals [] hpos (Or.inl hdup)

/-- Witness for C9 as amended: at `epsilon = 0` the duplicated pair of
`totalsDup` is dropped and the cluster probability sum is strictly
smaller. -/
theorem claim_C9_amended_witness :
    sumSnd (mergeTotals totalsDup 0) < sumSnd totalsDup := by
  refine claim_C9_amended totalsDup 0 le_rfl ?_ ?_
  · rw [totalsDup_eval]
    intro x hx
    simp only [List.mem_cons, List.not_mem_nil, or_false] at hx
    rcases hx with h | h | h | h <;> rw [h] <;> norm_num
  · rw [totalsDup_eval]
    intro h
    have := List.Nodup.not_mem (List.Nodup.of_cons h)
    simp at this

/-! ## Name parsing (C2) -/

theorem groupRuns_all_alpha :
    ∀ (l : List Char), l ≠ [] → (∀ c ∈ l, c.isAlpha) → groupRuns l = [l] := by
  intro l
  induction l with
  | nil => intro h _; exact absurd rfl h
  | cons c cs ih =>
    intro _ hall
    cases cs with
    | nil => rfl
    | cons d ds =>
      have hrec : groupRuns (d :: ds) = [d :: ds] :=
        ih (by simp) fun x hx => hall x (List.mem_cons_of_mem _ hx)
      have hc : c.isAlpha = true := hall c (List.mem_cons_self _ _)
      have hd : d.isAlpha = true := hall d (List.mem_cons_of_mem _ (List.mem_cons_self _ _))
      change (match groupRuns (d :: ds) with
        | [] => [[c]]
        | [] :: gs => [c] :: [] :: gs
        | (e :: g) :: gs =>
          if c.isAlpha == e.isAlpha then (c :: e :: g) :: gs
          else [c] :: (e :: g) :: gs) = [c :: d :: ds]
      rw [hrec]
      simp [hc, hd]

theorem splitUnits_all_alpha (s : String) (hne : s.toList ≠ [])
    (halpha : ∀ ch ∈ s.toList, ch.isAlpha) : splitUnits s = [s] := by
  unfold splitUnits
  rw [groupRuns_all_alpha s.toList hne halpha]
  simp [String.mk]

theorem detGo_no_match (blocks : BlockTable) (units : List String) :
    ∀ (rest : List String) (i : ℕ) (c : Comp),
      (∀ u ∈ rest, lookupBlock blocks u = none) →
      detGo blocks units rest i c = .ok c := by
  intro rest
  induction rest with
  | nil => intro i c _; rfl
  | cons u rest ih =>
    intro i c h
    have hu : lookupBlock blocks u = none := h u (List.mem_cons_self _ _)
    simp only [detGo, hu]
    exact ih (i + 1) c fun y hy => h y (List.mem_cons_of_mem _ hy)

theorem determine_no_match (blocks : BlockTable) (name : String) (c : Comp)
    (h : ∀ u ∈ splitUnits name, lookupBlock blocks u = none) :
    determine_total_number_of_elements blocks name c = .ok c :=
  detGo_no_match blocks (splitUnits name) (splitUnits name) 0 c h

theorem determine_single_alpha_matched (blocks : BlockTable) (s : String) (c : Comp)
    (hne : s.toList ≠ []) (halpha : ∀ ch ∈ s.toList, ch.isAlpha)
    (hmatch : (lookupBlock blocks s).isSome) :
    determine_total_number_of_elements blocks s c = .error .indexError := by
  unfold determine_total_number_of_elements
  rw [splitUnits_all_alpha s hne halpha]
  obtain ⟨b, hb⟩ := Option.isSome_iff_exists.mp hmatch
  simp only [detGo, hb]
  rfl

/-- Counterexample to C2 as stated: `"X"` is a single letter run not
followed by any digit run, yet — because it matches no known building
block — parsing succeeds and contributes nothing, instead of failing. -/
theorem claim_C2_counterexample :
    determine_total_number_of_elements [("H", massOnlyBlock)] "X" comp0 =
      .ok comp0 := by
  refine determine_no_match _ _ _ ?_
  intro u hu
  simp only [splitUnits] at hu
  norm_num [groupRuns, lookupBlock, List.find?] at hu ⊢
  rw [hu]
  rfl

theorem detSpec_nil (blocks : BlockTable) (c : Comp) :
    detSpec blocks [] c = .ok c := rfl

theorem detSpec_skip (blocks : BlockTable) (u : String) (ws : List String)
    (c : Comp) (h : lookupBlock blocks u = none) :
    detSpec blocks (u :: ws) c = detSpec blocks ws c := by
  simp only [detSpec, h]

theorem detSpec_last (blocks : BlockTable) (u : String) (b : Block) (c : Comp)
    (h : lookupBlock blocks u = some b) :
    detSpec blocks [u] c = .error .indexError := by
  simp only [detSpec, h]

theorem detSpec_bad (blocks : BlockTable) (u w : String) (ws : List String)
    (b : Block) (c : Comp) (hb : lookupBlock blocks u = some b)
    (hw : pyInt w = none) :
    detSpec blocks (u :: w :: ws) c = .error .valueError := by
  simp only [detSpec, hb, hw]

theorem detSpec_acc (blocks : BlockTable) (u w : String) (ws : List String)
    (b : Block) (n : ℤ) (c : Comp) (hb : lookupBlock blocks u = some b)
    (hn : pyInt w = some n) :
    detSpec blocks (u :: w :: ws) c =
      detSpec blocks (w :: ws) (accumUnit c b u n) := by
  simp only [detSpec, hb, hn]

theorem detGo_eq_detSpec (blocks : BlockTable) (units : List String) :
    ∀ (rest : List String) (i : ℕ) (c : Comp), units.drop i = rest →
      detGo blocks units rest i c = detSpec blocks rest c := by
  intro rest
  induction rest with
  | nil => intro i c _; rfl
  | cons u rest ih =>
    intro i c hdrop
    have hdrop1 : units.drop (i + 1) = rest := by
      rw [← List.tail_drop, hdrop, List.tail_cons]
    have hnext : units[i + 1]? = rest.head? := by
      rw [← List.head?_drop, hdrop1]
    cases hlb : lookupBlock blocks u with
    | none =>
      simp only [detGo, detSpec, hlb]
      exact ih (i + 1) c hdrop1
    | some b =>
      cases rest with
      | nil =>
        simp only [detGo, detSpec, hlb, hnext]
        rfl
      | cons nxt rest2 =>
        simp only [detGo, hlb, hnext, List.head?_cons]
        rw [detSpec]
        simp only [hlb]
        cases hpi : pyInt nxt with
        | none => rfl
        | some n => exact ih (i + 1) _ hdrop1

theorem determine_eq_detSpec (blocks : BlockTable) (name : String) (c : Comp) :
    determine_total_number_of_elements blocks name c =
      detSpec blocks (splitUnits name) c :=
  detGo_eq_detSpec blocks (splitUnits name) (splitUnits name) 0 c
    (List.drop_zero _)

theorem detSpec_ok_of_fed (blocks : BlockTable) :
    ∀ (us : List String) (c : Comp), matchedRunsFed blocks us = true →
      ∃ c2, detSpec blocks us c = .ok c2 := by
  intro us
  induction us with
  | nil => intro c _; exact ⟨c, rfl⟩
  | cons u rest ih =>
    intro c hfed
    cases hlb : lookupBlock blocks u with
    | none =>
      simp only [matchedRunsFed, hlb, Bool.true_and] at hfed
      rw [detSpec_skip blocks u rest c hlb]
      exact ih c hfed
    | some b =>
      cases rest with
      | nil => simp [matchedRunsFed, hlb] at hfed
      | cons nxt rest2 =>
        simp only [matchedRunsFed, hlb, Bool.and_eq_true] at hfed
        obtain ⟨n, hn⟩ := Option.isSome_iff_exists.mp hfed.1
        rw [detSpec_acc blocks u nxt rest2 b n c hlb hn]
        exact ih _ (by simp only [matchedRunsFed, Bool.and_eq_true]; exact hfed.2)

theorem detSpec_trailing_matched (blocks : BlockTable) (u : String) (b : Block)
    (hu : lookupBlock blocks u = some b) :
    ∀ (us : List String) (c : Comp), matchedRunsFed blocks us = true →
      detSpec blocks (us ++ [u]) c = .error .indexError := by
  intro us
  induction us with
  | nil =>
    intro c _
    rw [List.nil_append]
    exact detSpec_last blocks u b c hu
  | cons w us ih =>
    intro c hfed
    cases hlb : lookupBlock blocks w with
    | none =>
      simp only [matchedRunsFed, hlb, Bool.true_and] at hfed
      rw [List.cons_append, detSpec_skip blocks w (us ++ [u]) c hlb]
      exact ih c hfed
    | some bw =>
      cases us with
      | nil =>
        simp [matchedRunsFed, hlb] at hfed
      | cons nxt us2 =>
        simp only [matchedRunsFed, hlb, Bool.and_eq_true] at hfed
        obtain ⟨n, hn⟩ := Option.isSome_iff_exists.mp hfed.1
        rw [List.cons_append, List.cons_append,
          detSpec_acc blocks w nxt (us2 ++ [u]) bw n c hlb hn, ← List.cons_append]
        exact ih _ (by simp only [matchedRunsFed, Bool.and_eq_true]; exact hfed.2)

theorem detSpec_matched_unparseable (blocks : BlockTable) (u w : String)
    (b : Block) (hu : lookupBlock blocks u = some b) (hw : pyInt w = none) :
    ∀ (us ws : List String) (c : Comp), matchedRunsFed blocks us = true →
      detSpec blocks (us ++ u :: w :: ws) c = .error .valueError := by
  intro us
  induction us with
  | nil =>
    intro ws c _
    rw [List.nil_append]
    exact detSpec_bad blocks u w ws b c hu hw
  | cons v us ih =>
    intro ws c hfed
    cases hlb : lookupBlock blocks v with
    | none =>
      simp only [matchedRunsFed, hlb, Bool.true_and] at hfed
      rw [List.cons_append, detSpec_skip blocks v (us ++ u :: w :: ws) c hlb]
      exact ih ws c hfed
    | some bv =>
      cases us with
      | nil =>
        simp [matchedRunsFed, hlb] at hfed
      | cons nxt us2 =>
        simp only [matchedRunsFed, hlb, Bool.and_eq_true] at hfed
        obtain ⟨n, hn⟩ := Option.isSome_iff_exists.mp hfed.1
        rw [List.cons_append, List.cons_append,
          detSpec_acc blocks v nxt (us2 ++ u :: w :: ws) bv n c hlb hn,
          ← List.cons_append]
        exact ih ws _ (by simp only [matchedRunsFed, Bool.and_eq_true]; exact hfed.2)

/-- C2 as amended: `determine_total_number_of_elements` refines the
per-run contract `detSpec`: for every run in order, a run that matches a
known building block reads the immediately following run as its count —
failing with IndexError when there is no following run and with
ValueError when it does not parse as an integer (the failures the spec
groups as `MalformedNameError`) — and accumulates the block
`count`-fold, while a run matching no block (in particular every
unknown letter run) is passed over wherever it occurs, contributing
nothing and never erroring by itself; in particular, after any prefix
whose matched runs are all fed, a matched final run raises IndexError
and a matched run followed by an unparseable run raises ValueError,
and a run list whose matched runs are all fed never errors. -/
theorem claim_C2_amended :
    (∀ (blocks : BlockTable) (name : String) (c : Comp),
      determine_total_number_of_elements blocks name c =
        detSpec blocks (splitUnits name) c) ∧
    (∀ (blocks : BlockTable) (us : List String) (c : Comp),
      matchedRunsFed blocks us = true → ∃ c2, detSpec blocks us c = .ok c2) ∧
    (∀ (blocks : BlockTable) (u : String) (b : Block) (us : List String)
      (c : Comp), matchedRunsFed blocks us = true →
      lookupBlock blocks u = some b →
      detSpec blocks (us ++ [u]) c = .error .indexError) ∧
    (∀ (blocks : BlockTable) (u w : String) (b : Block) (us ws : List String)
      (c : Comp), matchedRunsFed blocks us = true →
      lookupBlock blocks u = some b → pyInt w = none →
      detSpec blocks (us ++ u :: w :: ws) c = .error .valueError) ∧
    (∀ (blocks : BlockTable) (u : String) (ws : List String) (c : Comp),
      lookupBlock blocks u = none →
      detSpec blocks (u :: ws) c = detSpec blocks ws c) ∧
    (∀ (blocks : BlockTable) (u w : String) (ws : List String) (b : Block)
      (n : ℤ) (c : Comp), lookupBlock blocks u = some b → pyInt w = some n →
      detSpec blocks (u :: w :: ws) c =
        detSpec blocks (w :: ws) (accumUnit c b u n)) := by
  refine ⟨determine_eq_detSpec, fun blocks us c h => detSpec_ok_of_fed blocks us c h,
    fun blocks u b us c hfed hu => detSpec_trailing_matched blocks u b hu us c hfed,
    fun blocks u w b us ws c hfed hu hw =>
      detSpec_matched_unparseable blocks u w b hu hw us ws c hfed,
    fun blocks u ws c h => detSpec_skip blocks u ws c h,
    fun blocks u w ws b n c hb hn => detSpec_acc blocks u w ws b n c hb hn⟩

/-- Witness for C2 as amended, exercising the general-position cases:
`"H5N4S"` errors with IndexError at the matched trailing run after two
valid pairs; `"H2."` errors with ValueError at the unparseable count;
and in `"H5X"` the unknown run `"X"` amid a matched pair contributes
nothing, the parse succeeding with exactly the `H`-block accumulated
five-fold. -/
theorem claim_C2_amended_witness :
    determine_total_number_of_elements
      [("H", massOnlyBlock), ("N", massOnlyBlock), ("S", massOnlyBlock)]
      "H5N4S" comp0 = .error .indexError ∧
    determine_total_number_of_elements [("H", massOnlyBlock)] "H2." comp0 =
      .error .valueError ∧
    determine_total_number_of_elements [("H", massOnlyBlock)] "H5X" comp0 =
      .ok { comp0 with mass := 10, total_number_units := 5 } := by
  obtain ⟨h1, _, h3, h4, h5, h6⟩ := claim_C2_amended
  refine ⟨?_, ?_, ?_⟩
  · rw [h1, show splitUnits "H5N4S" = ["H", "5", "N", "4"] ++ ["S"] from rfl]
    exact h3 _ "S" massOnlyBlock ["H", "5", "N", "4"] comp0 (by rfl) (by rfl)
  · rw [h1, show splitUnits "H2." = [] ++ "H" :: "2." :: [] from rfl]
    exact h4 _ "H" "2." massOnlyBlock [] [] comp0 (by rfl) (by rfl) (by rfl)
  · rw [h1, show splitUnits "H5X" = ["H", "5", "X"] from rfl,
      h6 _ "H" "5" ["X"] massOnlyBlock 5 comp0 (by rfl)
        (by rw [show pyInt "5" = some (Int.ofNat 5) from rfl]; norm_num),
      h5 _ "5" ["X"] _ (by rfl), h5 _ "X" [] _ (by rfl), detSpec_nil]
    norm_num [accumUnit, comp0, massOnlyBlock, Comp.mk.injEq,
      if_neg (show ¬ ("H" : String) = "S" by decide)]

/-! ## Spectrum windowing (C6, C7) -/

theorem take_takeWhile_length {α : Type} (p : α → Bool) :
    ∀ l : List α, l.take (l.takeWhile p).length = l.takeWhile p := by
  intro l
  induction l with
  | nil => rfl
  | cons x t ih =>
    by_cases hx : p x
    · simp [List.takeWhile_cons, hx, ih]
    · simp [List.takeWhile_cons, hx]

theorem sorted_filter_eq_takeWhile (hi : ℚ) :
    ∀ l : List (ℚ × ℚ), l.Pairwise (fun p q => p.1 ≤ q.1) →
      l.filter (fun p => decide (p.1 ≤ hi)) =
        l.takeWhile (fun p => decide (p.1 ≤ hi)) := by
  intro l
  induction l with
  | nil => intro _; rfl
  | cons x t ih =>
    intro hs
    rw [List.pairwise_cons] at hs
    by_cases hx : x.1 ≤ hi
    · simp [List.filter_cons, List.takeWhile_cons, hx, ih hs.2]
    · simp only [List.filter_cons, List.takeWhile_cons, hx, decide_False]
      simp only [Bool.false_eq_true, if_false]
      refine List.filter_eq_nil_iff.mpr fun y hy => ?_
      simp only [decide_eq_true_eq]
      intro hyle
      exact hx ((hs.1 y hy).trans hyle)

theorem bisect_left_cons (x : ℚ × ℚ) (t : List (ℚ × ℚ)) (lo : ℚ) :
    bisect_left ((x :: t).map Prod.fst) lo =
      if x.1 < lo then bisect_left (t.map Prod.fst) lo + 1 else 0 := by
  by_cases h : x.1 < lo <;> simp [bisect_left, List.takeWhile_cons, h]

theorem bisect_right_cons (x : ℚ × ℚ) (t : List (ℚ × ℚ)) (hi : ℚ) :
    bisect_right ((x :: t).map Prod.fst) hi =
      if x.1 ≤ hi then bisect_right (t.map Prod.fst) hi + 1 else 0 := by
  by_cases h : x.1 ≤ hi <;> simp [bisect_right, List.takeWhile_cons, h]

theorem bisect_right_takeWhile (t : List (ℚ × ℚ)) (hi : ℚ) :
    bisect_right (t.map Prod.fst) hi =
      (t.takeWhile fun p => decide (p.1 ≤ hi)).length := by
  rw [bisect_right, List.takeWhile_map, List.length_map]
  rfl

theorem slice_eq_filter (lo hi : ℚ) :
    ∀ l : List (ℚ × ℚ), l.Pairwise (fun p q => p.1 ≤ q.1) →
      ((l.drop (bisect_left (l.map Prod.fst) lo)).take
        (bisect_right (l.map Prod.fst) hi - bisect_left (l.map Prod.fst) lo)) =
      l.filter (fun p => decide (lo ≤ p.1) && decide (p.1 ≤ hi)) := by
  intro l
  induction l with
  | nil => intro _; rfl
  | cons x t ih =>
    intro hs
    rw [List.pairwise_cons] at hs
    have ihs := ih hs.2
    rw [bisect_left_cons, bisect_right_cons]
    by_cases hlo : x.1 < lo
    · have hxfail : ¬ (lo ≤ x.1) := not_le.mpr hlo
      by_cases hhi : x.1 ≤ hi
      · rw [if_pos hlo, if_pos hhi, Nat.succ_sub_succ, List.drop_succ_cons,
          List.filter_cons]
        simp only [hxfail, decide_False, Bool.false_and, Bool.false_eq_true, if_false]
        exact ihs
      · rw [if_pos hlo, if_neg hhi, Nat.zero_sub, List.take_zero, List.filter_cons]
        simp only [hxfail, decide_False, Bool.false_and, Bool.false_eq_true, if_false]
        refine (List.filter_eq_nil_iff.mpr fun y hy => ?_).symm
        simp only [Bool.and_eq_true, decide_eq_true_eq, not_and]
        exact fun _ hle => hhi (le_trans (hs.1 y hy) hle)
    · have hxlo : lo ≤ x.1 := not_lt.mp hlo
      by_cases hhi : x.1 ≤ hi
      · rw [if_neg hlo, if_pos hhi, List.drop_zero, Nat.sub_zero, List.take_succ_cons,
          List.filter_cons]
        simp only [hxlo, hhi, decide_True, Bool.and_self, if_true]
        congr 1
        have hall : t.filter (fun p => decide (lo ≤ p.1) && decide (p.1 ≤ hi)) =
            t.filter (fun p => decide (p.1 ≤ hi)) := by
          refine List.filter_congr fun y hy => ?_
          have hy1 : lo ≤ y.1 := hxlo.trans (hs.1 y hy)
          simp [hy1]
        rw [hall, sorted_filter_eq_takeWhile hi t hs.2, bisect_right_takeWhile]
        exact take_takeWhile_length _ t
      · rw [if_neg hlo, if_neg hhi, Nat.zero_sub, List.take_zero, List.filter_cons]
        simp only [hhi, decide_False, Bool.and_false, Bool.false_eq_true, if_false]
        refine (List.filter_eq_nil_iff.mpr fun y hy => ?_).symm
        simp only [Bool.and_eq_true, decide_eq_true_eq, not_and]
        exact fun _ hle => hhi (le_trans (hs.1 y hy) hle)

theorem inherit_eq_filter (spectrum isotopes : List (ℚ × ℚ)) (w mf c : ℚ)
    (hsort : spectrum.Pairwise (fun p q => p.1 ≤ q.1))
    (hne : spectrum ≠ [])
    (hmax : maxFraction isotopes = some mf)
    (hcen : centerMass isotopes mf = some c) :
    inherit_data_subset spectrum isotopes w =
      .ok (spectrum.filter fun p => decide (c - w ≤ p.1) && decide (p.1 ≤ c + w)) := by
  have hemp : spectrum.isEmpty = false := by
    cases spectrum with
    | nil => exact absurd rfl hne
    | cons a l => rfl
  simp only [inherit_data_subset, hemp, Bool.false_eq_true, if_false, hmax, hcen]
  exact congrArg Except.ok (slice_eq_filter (c - w) (c + w) spectrum hsort)

/-- C6: for a strictly ascending spectrum, `inherit_data_subset`
slices between the first index with mass `≥ center − mass_window` and
the first index with mass `> center + mass_window`, i.e. it returns
exactly the points whose mass lies in the closed window around the
dominant-isotope mass. -/
theorem claim_C6_window_extraction (spectrum isotopes : List (ℚ × ℚ)) (w mf c : ℚ)
    (hsort : spectrum.Pairwise (fun p q => p.1 < q.1))
    (hne : spectrum ≠ [])
    (hmax : maxFraction isotopes = some mf)
    (hcen : centerMass isotopes mf = some c) :
    inherit_data_subset spectrum isotopes w =
      .ok (spectrum.filter fun p => decide (c - w ≤ p.1) && decide (p.1 ≤ c + w)) :=
  inherit_eq_filter spectrum isotopes w mf c (hsort.imp le_of_lt) hne hmax hcen

/-- Witness for C6 at the spec's concrete example: masses
[100, 101, 102, 200, 201], reference 101, `mass_window = 1.5` extract
exactly the points with masses 100, 101, 102. -/
theorem claim_C6_window_extraction_witness :
    inherit_data_subset [(100, 1), (101, 2), (102, 3), (200, 4), (201, 5)]
      [(101, 1)] (3/2) = .ok [(100, 1), (101, 2), (102, 3)] := by
  rw [claim_C6_window_extraction [(100, 1), (101, 2), (102, 3), (200, 4), (201, 5)]
    [(101, 1)] (3/2) 1 101 (by norm_num [List.pairwise_cons]) (by simp)
    (by norm_num [maxFraction]) (by norm_num [centerMass])]
  norm_num [List.filter]

/-- C7: `inherit_data_subset` fails on a zero-point spectrum (the
condition the spec calls `EmptySpectrumError`), and on a non-empty
spectrum with no point inside the closed window it succeeds with an
empty subset rather than erroring. -/
theorem claim_C7_empty_spectrum_and_empty_window :
    (∀ (isotopes : List (ℚ × ℚ)) (w : ℚ),
      inherit_data_subset [] isotopes w = .error .emptySpectrum) ∧
    (∀ (spectrum isotopes : List (ℚ × ℚ)) (w mf c : ℚ),
      spectrum.Pairwise (fun p q => p.1 < q.1) → spectrum ≠ [] →
      maxFraction isotopes = some mf → centerMass isotopes mf = some c →
      (∀ p ∈ spectrum, p.1 < c - w ∨ c + w < p.1) →
      inherit_data_subset spectrum isotopes w = .ok []) := by
  constructor
  · intro isotopes w; rfl
  · intro spectrum isotopes w mf c hsort hne hmax hcen hout
    rw [inherit_eq_filter spectrum isotopes w mf c (hsort.imp le_of_lt) hne hmax hcen]
    congr 1
    refine List.filter_eq_nil_iff.mpr fun y hy => ?_
    simp only [Bool.and_eq_true, decide_eq_true_eq, not_and]
    rcases hout y hy with h | h
    · exact fun hle => absurd hle (not_le.mpr h)
    · exact fun _ hle => absurd hle (not_le.mpr h)

/-- Witness for C7: the empty spectrum errors; a two-point spectrum
whose points lie outside the window yields an empty subset. -/
theorem claim_C7_empty_spectrum_and_empty_window_witness :
    inherit_data_subset [] [(1, 1)] 1 = .error .emptySpectrum ∧
    inherit_data_subset [(100, 1), (200, 2)] [(150, 1)] 10 = .ok [] := by
  constructor
  · exact claim_C7_empty_spectrum_and_empty_window.1 [(1, 1)] 1
  · refine claim_C7_empty_spectrum_and_empty_window.2 [(100, 1), (200, 2)]
      [(150, 1)] 10 1 150 (by norm_num [List.pairwise_cons]) (by simp)
      (by norm_num [maxFraction]) (by norm_num [centerMass]) ?_
    intro p hp
    simp only [List.mem_cons, List.not_mem_nil, or_false] at hp
    rcases hp with h | h <;> rw [h] <;> norm_num

/-! ## Zero composition (C8) -/

theorem elemental_pattern_zero (p delta : ℚ) :
    calculate_elemental_isotopic_pattern p delta 0 = [(0, 1)] := by
  simp [calculate_elemental_isotopic_pattern, List.range_succ]

theorem combineTotals_singletons (m : ℚ) :
    combineTotals m [(0, 1)] [(0, 1)] [(0, 1)] [(0, 1)] [(0, 1)] [(0, 1)]
      [(0, 1)] [(0, 1)] = [(m, 1)] := by
  simp [combineTotals]

theorem mergeTotals_singleton (k v eps : ℚ) (hv : v ≠ 0) :
    mergeTotals [(k, v)] eps = [(k, v)] := by
  rw [mergeTotals, mergeGo]
  simp only [List.not_mem_nil, if_false, absorbedOf]
  simp only [List.mem_singleton, List.filter_cons, List.filter_nil]
  norm_num
  rw [mul_div_assoc, div_self hv, mul_one]
  exact ⟨rfl, rfl⟩

theorem truncGo_singleton (k v t acc : ℚ) :
    truncGo t [(k, v)] acc = [(k, v)] := by
  rw [truncGo]
  simp [truncGo, ite_self]

theorem sortDescBySnd_singleton (x : ℚ × ℚ) : sortDescBySnd [x] = [x] := rfl

theorem sortAscByFst_singleton (x : ℚ × ℚ) : sortAscByFst [x] = [x] := rfl

theorem envelope_of_zero_counts (c : Comp) (eps minContribution : ℚ)
    (hC : c.number_carbons = 0) (hH : c.number_hydrogens = 0)
    (hN : c.number_nitrogens = 0) (hO : c.number_oxygens = 0)
    (hS : c.number_sulfurs = 0) :
    calculate_analyte_isotopic_pattern c eps minContribution = [(c.mass, 1)] := by
  unfold calculate_analyte_isotopic_pattern
  rw [hC, hH, hN, hO, hS]
  simp only [Int.toNat_zero, elemental_pattern_zero, combineTotals_singletons,
    mergeTotals_singleton c.mass 1 eps one_ne_zero, sortDescBySnd_singleton]
  rw [truncateResults, truncGo_singleton, sortAscByFst_singleton]

/-- Counterexample to C8 as stated: with every elemental count zero
the envelope calculation does not fail with any error — it succeeds
and produces exactly the degenerate single-point distribution
`[(base mass, 1)]` that the claim says is prevented. -/
theorem claim_C8_counterexample :
    calculate_analyte_isotopic_pattern comp0 (1/100) (95/100) = [(0, 1)] :=
  envelope_of_zero_counts comp0 (1/100) (95/100) rfl rfl rfl rfl rfl

/-- C8 as amended: the code has no guard for the all-zero composition;
when carbons, hydrogens, nitrogens, oxygens and sulfurs are all zero,
`calculate_analyte_isotopic_pattern` succeeds for every epsilon and
truncation threshold, yielding the degenerate single-point distribution
at the base mass with fraction 1. -/
theorem claim_C8_amended (c : Comp) (eps minContribution : ℚ)
    (hC : c.number_carbons = 0) (hH : c.number_hydrogens = 0)
    (hN : c.number_nitrogens = 0) (hO : c.number_oxygens = 0)
    (hS : c.number_sulfurs = 0) :
    calculate_analyte_isotopic_pattern c eps minContribution = [(c.mass, 1)] :=
  envelope_of_zero_counts c eps minContribution hC hH hN hO hS

/-- Witness for C8 as amended at a concrete zero composition with
base mass 7. -/
theorem claim_C8_amended_witness :
    calculate_analyte_isotopic_pattern { comp0 with mass := 7 } 1 (1/2) =
      [(7, 1)] := by
  rw [claim_C8_amended { comp0 with mass := 7 } 1 (1/2) rfl rfl rfl rfl rfl]

/-! ## Permethylation modifier (C1) -/

/-- C1 (evaluation of the code at the failing input): with the
permethylation modifier `"Per"` configured — here on the claim's
composition with `total_number_units = 4`, `number_oxygens = 10` and no
sialic acids — `attach_mass_modifiers` raises `AttributeError` at the
read of `self.total_number_of_units` (the attribute actually assigned
is `total_number_units`), instead of computing the
`10 − (2·4 − 2) − 1 − 0 = 3` reactive sites and scaling the `Per`
block by them. -/
theorem claim_C1_per_modifier_attribute_error :
    attach_mass_modifiers [("H", massOnlyBlock), ("Per", massOnlyBlock)]
      ["Per"] "H"
      { comp0 with number_oxygens := 10, total_number_units := 4 } =
      .error .attributeError := rfl

/-! ## Repeated calculation (C10) -/

theorem except_bind_ok {α β : Type} (a : α) (f : α → Except PyErr β) :
    (Except.ok a : Except PyErr α) >>= f = f a := rfl

theorem calculate_isotopes_eval (blocks : BlockTable) (mm : List String)
    (cc name : String) (eps minC : ℚ) (c1 c2 : Comp)
    (hd : determine_total_number_of_elements blocks name comp0 = .ok c1)
    (ha : attach_mass_modifiers blocks mm cc c1 = .ok c2)
    (s : AnalyteState) :
    calculate_isotopes blocks mm cc name eps minC s =
      .ok { comp := c2
            isotopes := s.isotopes ++ calculate_analyte_isotopic_pattern c2 eps minC } := by
  simp [calculate_isotopes, hd, ha, except_bind_ok]

theorem calculate_isotopesN_eval (blocks : BlockTable) (mm : List String)
    (cc name : String) (eps minC : ℚ) (c1 c2 : Comp)
    (hd : determine_total_number_of_elements blocks name comp0 = .ok c1)
    (ha : attach_mass_modifiers blocks mm cc c1 = .ok c2) :
    ∀ (n : ℕ) (s : AnalyteState),
      calculate_isotopesN blocks mm cc name eps minC (n + 1) s =
        .ok { comp := c2
              isotopes := s.isotopes ++
                (List.replicate (n + 1)
                  (calculate_analyte_isotopic_pattern c2 eps minC)).flatten } := by
  intro n
  induction n with
  | zero =>
    intro s
    rw [calculate_isotopesN]
    rw [calculate_isotopes_eval blocks mm cc name eps minC c1 c2 hd ha s,
      except_bind_ok]
    rw [calculate_isotopesN]
    simp
  | succ n ih =>
    intro s
    rw [calculate_isotopesN]
    rw [calculate_isotopes_eval blocks mm cc name eps minC c1 c2 hd ha s,
      except_bind_ok]
    rw [ih]
    simp [List.replicate_succ, List.append_assoc]

theorem except_bind_error {α β : Type} (e : PyErr) (f : α → Except PyErr β) :
    (Except.error e : Except PyErr α) >>= f = .error e := rfl

/-- C10: `calculate_isotopes` resets the mass and every elemental/unit
counter on entry but never clears the isotope list, so `n ≥ 1` calls on
an analyte whose isotope list starts empty, with the same settings and
building blocks, leave the composition fields (mass and all counts)
equal to their single-call values while the isotope sequence holds `n`
concatenated copies of the single-call envelope. -/
theorem claim_C10_repeat_calls (blocks : BlockTable) (mm : List String)
    (cc name : String) (eps minC : ℚ) (s s1 : AnalyteState) (n : ℕ)
    (h : calculate_isotopes blocks mm cc name eps minC s = .ok s1)
    (hs : s.isotopes = []) (hn : 1 ≤ n) :
    calculate_isotopesN blocks mm cc name eps minC n s =
      .ok { comp := s1.comp
            isotopes := (List.replicate n s1.isotopes).flatten } := by
  cases hd : determine_total_number_of_elements blocks name comp0 with
  | error e =>
    rw [calculate_isotopes, hd, except_bind_error] at h
    exact absurd h (by simp)
  | ok c1 =>
    cases ha : attach_mass_modifiers blocks mm cc c1 with
    | error e =>
      rw [calculate_isotopes, hd, except_bind_ok, ha, except_bind_error] at h
      exact absurd h (by simp)
    | ok c2 =>
      have hs1 : s1 =
          { comp := c2,
            isotopes := s.isotopes ++ calculate_analyte_isotopic_pattern c2 eps minC } := by
        rw [calculate_isotopes_eval blocks mm cc name eps minC c1 c2 hd ha s] at h
        exact (Except.ok.inj h).symm
      obtain ⟨m, rfl⟩ : ∃ m, n = m + 1 := ⟨n - 1, by omega⟩
      rw [calculate_isotopesN_eval blocks mm cc name eps minC c1 c2 hd ha m s]
      rw [hs1, hs]
      simp

theorem pyInt_one : pyInt "1" = some 1 := by
  rw [show pyInt "1" = some (Int.ofNat 1) from rfl]
  norm_num

theorem splitUnits_H1 : splitUnits "H1" = ["H", "1"] := rfl

/-- Witness for C10: two calls on the analyte `"H1"` (block `H` of
mass 2, charge carrier `H`) leave the single-call composition and
duplicate the single-point envelope. -/
theorem claim_C10_repeat_calls_witness :
    calculate_isotopesN [("H", massOnlyBlock)] [] "H" "H1" 1 (1/2) 2
      { comp := comp0, isotopes := [] } =
      .ok { comp := compH1, isotopes := [(4, 1), (4, 1)] } := by
  have hd : determine_total_number_of_elements [("H", massOnlyBlock)] "H1" comp0 =
      .ok { comp0 with mass := 2, total_number_units := 1 } := by
    rw [determine_total_number_of_elements, splitUnits_H1]
    simp only [detGo, show lookupBlock [("H", massOnlyBlock)] "H" = some massOnlyBlock from rfl,
      show lookupBlock [("H", massOnlyBlock)] "1" = none from rfl,
      List.getElem?_cons_succ, List.getElem?_cons_zero, pyInt_one,
      if_neg (show ¬ ("H" : String) = "S" by decide)]
    norm_num [comp0, massOnlyBlock, Comp.mk.injEq]
  have ha : attach_mass_modifiers [("H", massOnlyBlock)] [] "H"
      { comp0 with mass := 2, total_number_units := 1 } = .ok compH1 := by
    simp only [attach_mass_modifiers, List.nil_append, attachIndep, attachPer,
      show lookupBlock [("H", massOnlyBlock)] "H" = some massOnlyBlock from rfl,
      if_neg (show ¬ ("H" : String) = "Per" by decide), except_bind_ok]
    norm_num [comp0, compH1, massOnlyBlock, Comp.mk.injEq]
  have h : calculate_isotopes [("H", massOnlyBlock)] [] "H" "H1" 1 (1/2)
      { comp := comp0, isotopes := [] } = .ok { comp := compH1, isotopes := [(4, 1)] } := by
    rw [calculate_isotopes_eval [("H", massOnlyBlock)] [] "H" "H1" 1 (1/2) _ _ hd ha]
    rw [envelope_of_zero_counts compH1 1 (1/2) rfl rfl rfl rfl rfl]
    norm_num [compH1]
  refine (claim_C10_repeat_calls [("H", massOnlyBlock)] [] "H" "H1" 1 (1/2)
    { comp := comp0, isotopes := [] } { comp := compH1, isotopes := [(4, 1)] } 2
    h rfl (by norm_num)).trans ?_
  simp

/-! ## Envelope invariants (C5) -/

theorem elemental_pattern_pos (p delta : ℚ) (n : ℕ) (h0 : 0 < p) (h1 : p < 1) :
    ∀ x ∈ calculate_elemental_isotopic_pattern p delta n, 0 < x.2 := by
  intro x hx
  simp only [calculate_elemental_isotopic_pattern, List.mem_map, List.mem_range] at hx
  obtain ⟨k, hk, rfl⟩ := hx
  have hch : 0 < (n.choose k : ℚ) := by
    exact_mod_cast Nat.choose_pos (by omega)
  exact mul_pos (mul_pos hch (pow_pos h0 k)) (pow_pos (by linarith) (n - k))

theorem combineTotals_pos (mass : ℚ) (l1 l2 l3 l4 l5 l6 l7 l8 : List (ℚ × ℚ))
    (h1 : ∀ x ∈ l1, 0 < x.2) (h2 : ∀ x ∈ l2, 0 < x.2)
    (h3 : ∀ x ∈ l3, 0 < x.2) (h4 : ∀ x ∈ l4, 0 < x.2)
    (h5 : ∀ x ∈ l5, 0 < x.2) (h6 : ∀ x ∈ l6, 0 < x.2)
    (h7 : ∀ x ∈ l7, 0 < x.2) (h8 : ∀ x ∈ l8, 0 < x.2) :
    ∀ x ∈ combineTotals mass l1 l2 l3 l4 l5 l6 l7 l8, 0 < x.2 := by
  intro x hx
  simp only [combineTotals, List.mem_flatMap, List.mem_singleton] at hx
  obtain ⟨i, hi, j, hj, k, hk, l, hl, m, hm, n, hn, o, ho, p, hp, rfl⟩ := hx
  exact mul_pos (mul_pos (mul_pos (mul_pos (mul_pos (mul_pos (mul_pos
    (h1 i hi) (h2 j hj)) (h3 k hk)) (h4 l hl)) (h5 m hm)) (h6 n hn))
    (h7 o ho)) (h8 p hp)

theorem absorbedOf_subset (totals consumed : List (ℚ × ℚ)) (k eps : ℚ) :
    ∀ z ∈ absorbedOf totals consumed k eps, z ∈ totals := by
  intro z hz
  exact (List.mem_filter.mp ((List.mem_filter.mp hz).1)).1

theorem mergeGo_pos (eps : ℚ) (totals : List (ℚ × ℚ))
    (htot : ∀ x ∈ totals, 0 < x.2) :
    ∀ (rest consumed : List (ℚ × ℚ)), (∀ x ∈ rest, 0 < x.2) →
      ∀ y ∈ mergeGo eps totals rest consumed, 0 < y.2 := by
  intro rest
  induction rest with
  | nil => intro consumed _ y hy; simp [mergeGo] at hy
  | cons x rest ih =>
    intro consumed hr y hy
    obtain ⟨k, v⟩ := x
    have hv : 0 < v := hr (k, v) (List.mem_cons_self _ _)
    have hrest : ∀ z ∈ rest, 0 < z.2 := fun z hz => hr z (List.mem_cons_of_mem _ hz)
    by_cases hc : (k, v) ∈ consumed
    · rw [show mergeGo eps totals ((k, v) :: rest) consumed =
          mergeGo eps totals rest consumed by rw [mergeGo, if_pos hc]] at hy
      exact ih consumed hrest y hy
    · rw [show mergeGo eps totals ((k, v) :: rest) consumed =
          ((k * v :: (absorbedOf totals ((k, v) :: consumed) k eps).map fun d => d.1 * d.2).sum /
            (v :: (absorbedOf totals ((k, v) :: consumed) k eps).map fun d => d.2).sum,
           (v :: (absorbedOf totals ((k, v) :: consumed) k eps).map fun d => d.2).sum) ::
          mergeGo eps totals rest
            (absorbedOf totals ((k, v) :: consumed) k eps ++ (k, v) :: consumed)
          by rw [mergeGo, if_neg hc]] at hy
      rcases List.mem_cons.mp hy with rfl | hy2
      · have hsum : 0 ≤ (((absorbedOf totals ((k, v) :: consumed) k eps).map fun d => d.2)).sum := by
          refine List.sum_nonneg fun a ha => ?_
          obtain ⟨z, hz, rfl⟩ := List.mem_map.mp ha
          exact (htot z (absorbedOf_subset totals _ k eps z hz)).le
        simp only [List.sum_cons]
        linarith
      · exact ih _ hrest y hy2

theorem truncGo_subset (threshold : ℚ) :
    ∀ (rs : List (ℚ × ℚ)) (acc : ℚ) (y : ℚ × ℚ),
      y ∈ truncGo threshold rs acc → y ∈ rs := by
  intro rs
  induction rs with
  | nil => intro acc y hy; simp [truncGo] at hy
  | cons r rest ih =>
    intro acc y hy
    rw [truncGo] at hy
    rcases List.mem_cons.mp hy with rfl | hy2
    · exact List.mem_cons_self _ _
    · by_cases hb : threshold < acc + r.2
      · rw [if_pos hb] at hy2
        simp at hy2
      · rw [if_neg hb] at hy2
        exact List.mem_cons_of_mem _ (ih _ y hy2)

theorem calc_pattern_pos (c : Comp) (eps minC : ℚ) :
    ∀ y ∈ calculate_analyte_isotopic_pattern c eps minC, 0 < y.2 := by
  intro y hy
  simp only [calculate_analyte_isotopic_pattern, sortAscByFst, truncateResults,
    sortDescBySnd, mergeTotals] at hy
  rw [List.mem_insertionSort] at hy
  have hy2 := truncGo_subset minC _ 0 y hy
  rw [List.mem_insertionSort] at hy2
  refine mergeGo_pos eps _ ?_ _ [] ?_ y hy2 <;>
  · refine combineTotals_pos c.mass _ _ _ _ _ _ _ _ ?_ ?_ ?_ ?_ ?_ ?_ ?_ ?_ <;>
      exact elemental_pattern_pos _ _ _ (by norm_num) (by norm_num)

theorem calc_pattern_sorted (c : Comp) (eps minC : ℚ) :
    (calculate_analyte_isotopic_pattern c eps minC).Pairwise
      (fun p q => p.1 ≤ q.1) := by
  simp only [calculate_analyte_isotopic_pattern, sortAscByFst]
  exact List.sorted_insertionSort _ _

/-! ## C5 counterexample evaluation -/

set_option maxHeartbeats 3000000 in
theorem c5_pipeline_eval :
    calculate_analyte_isotopic_pattern fiveCarbonComp epsC5 minC5 =
      [(715723/13904000, 24971985120040479807/25000000000000000000),
       (403487169/200000000, 1120530219601/1000000000000000)] := by
  have hdist : calculate_elemental_isotopic_pattern 0.0107 1.00335 5 =
      [(0, 94763271496954532693/100000000000000000000),
       (20067/20000, 1024933796641477307/20000000000000000000),
       (20067/10000, 11085405462512693/10000000000000000000),
       (60201/20000, 119896733497307/10000000000000000000),
       (20067/5000, 1296770492693/20000000000000000000),
       (20067/4000, 14025517307/100000000000000000000)] := by
    norm_num [calculate_elemental_isotopic_pattern, List.range_succ, Nat.choose]
  have hcomb : combineTotals 0
      [(0, 94763271496954532693/100000000000000000000),
       (20067/20000, 1024933796641477307/20000000000000000000),
       (20067/10000, 11085405462512693/10000000000000000000),
       (60201/20000, 119896733497307/10000000000000000000),
       (20067/5000, 1296770492693/20000000000000000000),
       (20067/4000, 14025517307/100000000000000000000)]
      [(0, 1)] [(0, 1)] [(0, 1)] [(0, 1)] [(0, 1)] [(0, 1)] [(0, 1)] =
      [(0, 94763271496954532693/100000000000000000000),
       (20067/20000, 1024933796641477307/20000000000000000000),
       (20067/10000, 11085405462512693/10000000000000000000),
       (60201/20000, 119896733497307/10000000000000000000),
       (20067/5000, 1296770492693/20000000000000000000),
       (20067/4000, 14025517307/100000000000000000000)] := by
    norm_num [combineTotals]
  have hmerge : mergeTotals
      [(0, 94763271496954532693/100000000000000000000),
       (20067/20000, 1024933796641477307/20000000000000000000),
       (20067/10000, 11085405462512693/10000000000000000000),
       (60201/20000, 119896733497307/10000000000000000000),
       (20067/5000, 1296770492693/20000000000000000000),
       (20067/4000, 14025517307/100000000000000000000)] epsC5 =
      [(715723/13904000, 24971985120040479807/25000000000000000000),
       (403487169/200000000, 1120530219601/1000000000000000),
       (265412831/66096000, 1624469495193/25000000000000000000)] := by
    norm_num [mergeTotals, mergeGo, absorbedOf, abs, epsC5]
  have hsort : sortDescBySnd
      [(715723/13904000, 24971985120040479807/25000000000000000000),
       (403487169/200000000, 1120530219601/1000000000000000),
       (265412831/66096000, 1624469495193/25000000000000000000)] =
      [(715723/13904000, 24971985120040479807/25000000000000000000),
       (403487169/200000000, 1120530219601/1000000000000000),
       (265412831/66096000, 1624469495193/25000000000000000000)] := by
    norm_num [sortDescBySnd, List.insertionSort, List.orderedInsert]
  have htrunc : truncateResults
      [(715723/13904000, 24971985120040479807/25000000000000000000),
       (403487169/200000000, 1120530219601/1000000000000000),
       (265412831/66096000, 1624469495193/25000000000000000000)] minC5 =
      [(715723/13904000, 24971985120040479807/25000000000000000000),
       (403487169/200000000, 1120530219601/1000000000000000)] := by
    norm_num [truncateResults, truncGo, minC5]
  have hasc : sortAscByFst
      [(715723/13904000, 24971985120040479807/25000000000000000000),
       (403487169/200000000, 1120530219601/1000000000000000)] =
      [(715723/13904000, 24971985120040479807/25000000000000000000),
       (403487169/200000000, 1120530219601/1000000000000000)] := by
    norm_num [sortAscByFst, List.insertionSort, List.orderedInsert]
  have hc : fiveCarbonComp.number_carbons.toNat = 5 := by
    simp only [fiveCarbonComp, comp0]
    omega
  have hh : fiveCarbonComp.number_hydrogens.toNat = 0 := by
    simp only [fiveCarbonComp, comp0]
    omega
  have hn : fiveCarbonComp.number_nitrogens.toNat = 0 := by
    simp only [fiveCarbonComp, comp0]
    omega
  have ho : fiveCarbonComp.number_oxygens.toNat = 0 := by
    simp only [fiveCarbonComp, comp0]
    omega
  have hs : fiveCarbonComp.number_sulfurs.toNat = 0 := by
    simp only [fiveCarbonComp, comp0]
    omega
  have hm : fiveCarbonComp.mass = 0 := by norm_num [fiveCarbonComp, comp0]
  simp only [calculate_analyte_isotopic_pattern, hc, hh, hn, ho, hs, hm,
    elemental_pattern_zero, hdist]
  rw [hcomb, hmerge, hsort, htrunc, hasc]

/-- Counterexample to C5 as stated, explained: with five carbons only
and `epsilon = 1.99 × 1.00335`, the ¹³C isotopologues pair up into
clusters {k=0,1}, {k=2,3}, {k=4,5}; truncation at 0.999 retains the
first two clusters, whose probability-weighted mean masses differ by
about `1.9660 < epsilon` — so two retained isotope masses differ by
less than epsilon, refuting the claimed epsilon separation. -/
theorem claim_C5_counterexample :
    (calculate_analyte_isotopic_pattern fiveCarbonComp epsC5 minC5).length = 2 ∧
    |((calculate_analyte_isotopic_pattern fiveCarbonComp epsC5 minC5).map
        Prod.fst).getD 1 0 -
      ((calculate_analyte_isotopic_pattern fiveCarbonComp epsC5 minC5).map
        Prod.fst).getD 0 0| < epsC5 := by
  rw [c5_pipeline_eval]
  refine ⟨rfl, ?_⟩
  rw [show ((([(715723/13904000, 24971985120040479807/25000000000000000000),
       ((403487169 : ℚ)/200000000, 1120530219601/1000000000000000)] :
       List (ℚ × ℚ)).map Prod.fst).getD 1 0) = 403487169/200000000 from rfl,
     show ((([(715723/13904000, 24971985120040479807/25000000000000000000),
       ((403487169 : ℚ)/200000000, 1120530219601/1000000000000000)] :
       List (ℚ × ℚ)).map Prod.fst).getD 0 0) = 715723/13904000 from rfl]
  rw [abs_of_pos (by norm_num)]
  norm_num [epsC5]

/-! ## Cluster separation and strict ordering (C5) -/
theorem sum_snd_pos_of_mem (ms : List (ℚ × ℚ)) (hne : ms ≠ [])
    (hpos : ∀ m ∈ ms, 0 < m.2) : 0 < (ms.map Prod.snd).sum := by
  refine List.sum_pos _ (fun x hx => ?_) (by simpa using hne)
  obtain ⟨m, hm, rfl⟩ := List.mem_map.mp hx
  exact hpos m hm

theorem sum_mul_lt_of_fst_lt (b : ℚ) :
    ∀ ms : List (ℚ × ℚ), ms ≠ [] → (∀ m ∈ ms, 0 < m.2) →
      (∀ m ∈ ms, m.1 < b) →
      (ms.map fun d => d.1 * d.2).sum < b * (ms.map Prod.snd).sum := by
  intro ms
  induction ms with
  | nil => intro h; exact absurd rfl h
  | cons m rest ih =>
    intro _ hpos hlt
    have hm2 : 0 < m.2 := hpos m (List.mem_cons_self _ _)
    have hm1 : m.1 < b := hlt m (List.mem_cons_self _ _)
    have hhead : m.1 * m.2 < b * m.2 := mul_lt_mul_of_pos_right hm1 hm2
    simp only [List.map_cons, List.sum_cons, mul_add]
    cases rest with
    | nil => simpa using hhead
    | cons r rs =>
      have hrec := ih (by simp) (fun x hx => hpos x (List.mem_cons_of_mem _ hx))
        (fun x hx => hlt x (List.mem_cons_of_mem _ hx))
      simp only [List.map_cons, List.sum_cons, mul_add] at hrec ⊢
      linarith

theorem sum_mul_gt_of_fst_gt (a : ℚ) :
    ∀ ms : List (ℚ × ℚ), ms ≠ [] → (∀ m ∈ ms, 0 < m.2) →
      (∀ m ∈ ms, a < m.1) →
      a * (ms.map Prod.snd).sum < (ms.map fun d => d.1 * d.2).sum := by
  intro ms
  induction ms with
  | nil => intro h; exact absurd rfl h
  | cons m rest ih =>
    intro _ hpos hlt
    have hm2 : 0 < m.2 := hpos m (List.mem_cons_self _ _)
    have hm1 : a < m.1 := hlt m (List.mem_cons_self _ _)
    have hhead : a * m.2 < m.1 * m.2 := mul_lt_mul_of_pos_right hm1 hm2
    simp only [List.map_cons, List.sum_cons, mul_add]
    cases rest with
    | nil => simpa using hhead
    | cons r rs =>
      have hrec := ih (by simp) (fun x hx => hpos x (List.mem_cons_of_mem _ hx))
        (fun x hx => hlt x (List.mem_cons_of_mem _ hx))
      simp only [List.map_cons, List.sum_cons, mul_add] at hrec ⊢
      linarith

theorem sum_mul_le_of_fst_le (b : ℚ) :
    ∀ ms : List (ℚ × ℚ), (∀ m ∈ ms, 0 < m.2) → (∀ m ∈ ms, m.1 ≤ b) →
      (ms.map fun d => d.1 * d.2).sum ≤ b * (ms.map Prod.snd).sum := by
  intro ms
  induction ms with
  | nil => intro _ _; simp
  | cons m rest ih =>
    intro hpos hle
    have hm2 : 0 < m.2 := hpos m (List.mem_cons_self _ _)
    have hm1 : m.1 ≤ b := hle m (List.mem_cons_self _ _)
    have hhead : m.1 * m.2 ≤ b * m.2 := mul_le_mul_of_nonneg_right hm1 hm2.le
    have hrec := ih (fun x hx => hpos x (List.mem_cons_of_mem _ hx))
      (fun x hx => hle x (List.mem_cons_of_mem _ hx))
    simp only [List.map_cons, List.sum_cons, mul_add]
    linarith

theorem sum_mul_ge_of_fst_ge (a : ℚ) :
    ∀ ms : List (ℚ × ℚ), (∀ m ∈ ms, 0 < m.2) → (∀ m ∈ ms, a ≤ m.1) →
      a * (ms.map Prod.snd).sum ≤ (ms.map fun d => d.1 * d.2).sum := by
  intro ms
  induction ms with
  | nil => intro _ _; simp
  | cons m rest ih =>
    intro hpos hle
    have hm2 : 0 < m.2 := hpos m (List.mem_cons_self _ _)
    have hm1 : a ≤ m.1 := hle m (List.mem_cons_self _ _)
    have hhead : a * m.2 ≤ m.1 * m.2 := mul_le_mul_of_nonneg_right hm1 hm2.le
    have hrec := ih (fun x hx => hpos x (List.mem_cons_of_mem _ hx))
      (fun x hx => hle x (List.mem_cons_of_mem _ hx))
    simp only [List.map_cons, List.sum_cons, mul_add]
    linarith

theorem cluster_one_side (eps k k0 : ℚ) (ms : List (ℚ × ℚ)) (hne : ms ≠ [])
    (hball : ∀ m ∈ ms, |k0 - m.1| < eps)
    (hfar : ∀ m ∈ ms, eps ≤ |k - m.1|) :
    (∀ m ∈ ms, m.1 ≤ k - eps) ∨ (∀ m ∈ ms, k + eps ≤ m.1) := by
  obtain ⟨m0, hm0⟩ := List.exists_mem_of_ne_nil ms hne
  rcases le_abs.mp (hfar m0 hm0) with h | h
  · left
    intro m hm
    rcases le_abs.mp (hfar m hm) with h2 | h2
    · linarith
    · exfalso
      have hb0 := abs_lt.mp (hball m0 hm0)
      have hbm := abs_lt.mp (hball m hm)
      obtain ⟨hb0l, hb0r⟩ := hb0
      obtain ⟨hbml, hbmr⟩ := hbm
      linarith
  · right
    intro m hm
    rcases le_abs.mp (hfar m hm) with h2 | h2
    · exfalso
      have hb0 := abs_lt.mp (hball m0 hm0)
      have hbm := abs_lt.mp (hball m hm)
      obtain ⟨hb0l, hb0r⟩ := hb0
      obtain ⟨hbml, hbmr⟩ := hbm
      linarith
    · linarith

theorem IsCluster.mono {eps : ℚ} {totals consumed1 consumed2 : List (ℚ × ℚ)}
    {c : ℚ × ℚ} (hsub : ∀ x ∈ consumed1, x ∈ consumed2)
    (h : IsCluster eps totals consumed2 c) : IsCluster eps totals consumed1 c := by
  obtain ⟨ms, h1, h2, h3, h4, h5, h6⟩ := h
  exact ⟨ms, h1, h2, fun m hm hmem => h3 m hm (hsub m hmem), h4, h5, h6⟩

theorem absorbedOf_not_consumed (totals consumed : List (ℚ × ℚ)) (k eps : ℚ) :
    ∀ z ∈ absorbedOf totals consumed k eps, z ∉ consumed := by
  intro z hz
  have := (List.mem_filter.mp ((List.mem_filter.mp hz).1)).2
  simpa using this

theorem absorbedOf_near (totals consumed : List (ℚ × ℚ)) (k eps : ℚ) :
    ∀ z ∈ absorbedOf totals consumed k eps, |k - z.1| < eps := by
  intro z hz
  have := (List.mem_filter.mp hz).2
  simpa using this

theorem absorbedOf_mem_of (totals consumed : List (ℚ × ℚ)) (k eps : ℚ)
    (z : ℚ × ℚ) (hz : z ∈ totals) (hnc : z ∉ consumed) (hnear : |k - z.1| < eps) :
    z ∈ absorbedOf totals consumed k eps := by
  refine List.mem_filter.mpr ⟨List.mem_filter.mpr ⟨hz, ?_⟩, ?_⟩
  · simpa using hnc
  · simpa using hnear

theorem mergeGo_isCluster (eps : ℚ) (heps : 0 < eps) (totals : List (ℚ × ℚ)) :
    ∀ (rest consumed : List (ℚ × ℚ)), (∀ x ∈ rest, x ∈ totals) →
      ∀ c ∈ mergeGo eps totals rest consumed, IsCluster eps totals consumed c := by
  intro rest
  induction rest with
  | nil => intro consumed _ c hc; simp [mergeGo] at hc
  | cons x rest ih =>
    intro consumed hsub c hc
    obtain ⟨k, v⟩ := x
    have hrest : ∀ z ∈ rest, z ∈ totals := fun z hz => hsub z (List.mem_cons_of_mem _ hz)
    by_cases hmem : (k, v) ∈ consumed
    · rw [show mergeGo eps totals ((k, v) :: rest) consumed =
          mergeGo eps totals rest consumed by rw [mergeGo, if_pos hmem]] at hc
      exact ih consumed hrest c hc
    · rw [show mergeGo eps totals ((k, v) :: rest) consumed =
          ((k * v :: (absorbedOf totals ((k, v) :: consumed) k eps).map fun d => d.1 * d.2).sum /
            (v :: (absorbedOf totals ((k, v) :: consumed) k eps).map fun d => d.2).sum,
           (v :: (absorbedOf totals ((k, v) :: consumed) k eps).map fun d => d.2).sum) ::
          mergeGo eps totals rest
            (absorbedOf totals ((k, v) :: consumed) k eps ++ (k, v) :: consumed)
          by rw [mergeGo, if_neg hmem]] at hc
      rcases List.mem_cons.mp hc with rfl | hc2
      · refine ⟨(k, v) :: absorbedOf totals ((k, v) :: consumed) k eps,
          by simp, ?_, ?_, ⟨k, ?_⟩, rfl, rfl⟩
        · intro m hm
          rcases List.mem_cons.mp hm with rfl | hm2
          · exact hsub (k, v) (List.mem_cons_self _ _)
          · exact absorbedOf_subset totals _ k eps m hm2
        · intro m hm
          rcases List.mem_cons.mp hm with rfl | hm2
          · exact hmem
          · intro hmc
            exact absorbedOf_not_consumed totals _ k eps m hm2
              (List.mem_cons_of_mem _ hmc)
        · intro m hm
          rcases List.mem_cons.mp hm with rfl | hm2
          · simpa using heps
          · exact absorbedOf_near totals _ k eps m hm2
      · refine IsCluster.mono ?_ (ih _ hrest c hc2)
        intro z hz
        exact List.mem_append_right _ (List.mem_cons_of_mem _ hz)

theorem mergeGo_pairwise_ne (eps : ℚ) (heps : 0 < eps) (totals : List (ℚ × ℚ))
    (hpos : ∀ x ∈ totals, 0 < x.2) :
    ∀ (rest consumed : List (ℚ × ℚ)), (∀ x ∈ rest, x ∈ totals) →
      (mergeGo eps totals rest consumed).Pairwise fun a b => a.1 ≠ b.1 := by
  intro rest
  induction rest with
  | nil => intro consumed _; exact List.Pairwise.nil
  | cons x rest ih =>
    intro consumed hsub
    obtain ⟨k, v⟩ := x
    have hrest : ∀ z ∈ rest, z ∈ totals := fun z hz => hsub z (List.mem_cons_of_mem _ hz)
    by_cases hmem : (k, v) ∈ consumed
    · rw [show mergeGo eps totals ((k, v) :: rest) consumed =
          mergeGo eps totals rest consumed by rw [mergeGo, if_pos hmem]]
      exact ih consumed hrest
    · rw [show mergeGo eps totals ((k, v) :: rest) consumed =
          ((k * v :: (absorbedOf totals ((k, v) :: consumed) k eps).map fun d => d.1 * d.2).sum /
            (v :: (absorbedOf totals ((k, v) :: consumed) k eps).map fun d => d.2).sum,
           (v :: (absorbedOf totals ((k, v) :: consumed) k eps).map fun d => d.2).sum) ::
          mergeGo eps totals rest
            (absorbedOf totals ((k, v) :: consumed) k eps ++ (k, v) :: consumed)
          by rw [mergeGo, if_neg hmem]]
      refine List.Pairwise.cons ?_ (ih _ hrest)
      intro c hc
      have hcl := mergeGo_isCluster eps heps totals rest
        (absorbedOf totals ((k, v) :: consumed) k eps ++ (k, v) :: consumed)
        hrest c hc
      obtain ⟨ms, hne, hmt, hnc, ⟨k0, hball⟩, hmass, hprob⟩ := hcl
      -- the members of the later cluster all sit at distance ≥ eps from k
      have hfar : ∀ m ∈ ms, eps ≤ |k - m.1| := by
        intro m hm
        by_contra hlt
        push_neg at hlt
        have habs : m ∈ absorbedOf totals ((k, v) :: consumed) k eps := by
          refine absorbedOf_mem_of totals _ k eps m (hmt m hm) ?_ hlt
          intro hmc
          exact hnc m hm (List.mem_append_right _ hmc)
        exact hnc m hm (List.mem_append_left _ habs)
      -- the seed cluster's members all sit strictly inside the eps ball at k
      set ms0 : List (ℚ × ℚ) := (k, v) :: absorbedOf totals ((k, v) :: consumed) k eps with hms0
      have hms0ne : ms0 ≠ [] := by simp [hms0]
      have hms0near : ∀ m ∈ ms0, |k - m.1| < eps := by
        intro m hm
        rcases List.mem_cons.mp hm with rfl | hm2
        · simpa using heps
        · exact absorbedOf_near totals _ k eps m hm2
      have hms0pos : ∀ m ∈ ms0, 0 < m.2 := by
        intro m hm
        rcases List.mem_cons.mp hm with rfl | hm2
        · exact hpos (k, v) (hsub (k, v) (List.mem_cons_self _ _))
        · exact hpos m (absorbedOf_subset totals _ k eps m hm2)
      have hmspos : ∀ m ∈ ms, 0 < m.2 := fun m hm => hpos m (hmt m hm)
      have hms0sum : 0 < (ms0.map Prod.snd).sum := sum_snd_pos_of_mem ms0 hms0ne hms0pos
      have hmssum : 0 < (ms.map Prod.snd).sum := sum_snd_pos_of_mem ms hne hmspos
      -- seed cluster mean lies strictly inside (k - eps, k + eps)
      have hmean0_gt : k - eps < (ms0.map fun d => d.1 * d.2).sum / (ms0.map Prod.snd).sum := by
        rw [lt_div_iff₀ hms0sum]
        refine sum_mul_gt_of_fst_gt (k - eps) ms0 hms0ne hms0pos fun m hm => ?_
        have := abs_lt.mp (hms0near m hm)
        linarith [this.1, this.2]
      have hmean0_lt : (ms0.map fun d => d.1 * d.2).sum / (ms0.map Prod.snd).sum < k + eps := by
        rw [div_lt_iff₀ hms0sum]
        refine sum_mul_lt_of_fst_lt (k + eps) ms0 hms0ne hms0pos fun m hm => ?_
        have := abs_lt.mp (hms0near m hm)
        linarith [this.1, this.2]
      -- the later cluster's mean is on one side
      have hfirst : ((k * v :: (absorbedOf totals ((k, v) :: consumed) k eps).map fun d => d.1 * d.2).sum /
            (v :: (absorbedOf totals ((k, v) :: consumed) k eps).map fun d => d.2).sum) =
          (ms0.map fun d => d.1 * d.2).sum / (ms0.map Prod.snd).sum := rfl
      rw [hfirst, hmass]
      rcases cluster_one_side eps k k0 ms hne hball hfar with hside | hside
      · have : (ms.map fun d => d.1 * d.2).sum / (ms.map Prod.snd).sum ≤ k - eps := by
          rw [div_le_iff₀ hmssum]
          exact sum_mul_le_of_fst_le (k - eps) ms hmspos hside
        exact ne_of_gt (lt_of_le_of_lt this hmean0_gt)
      · have : k + eps ≤ (ms.map fun d => d.1 * d.2).sum / (ms.map Prod.snd).sum := by
          rw [le_div_iff₀ hmssum]
          exact sum_mul_ge_of_fst_ge (k + eps) ms hmspos hside
        exact ne_of_lt (lt_of_lt_of_le hmean0_lt this)

theorem truncGo_sublist (threshold : ℚ) :
    ∀ (rs : List (ℚ × ℚ)) (acc : ℚ), (truncGo threshold rs acc).Sublist rs := by
  intro rs
  induction rs with
  | nil => intro acc; simp [truncGo]
  | cons r rest ih =>
    intro acc
    rw [truncGo]
    by_cases hb : threshold < acc + r.2
    · rw [if_pos hb]
      exact (List.nil_sublist rest).cons₂ r
    · rw [if_neg hb]
      exact (ih (acc + r.2)).cons₂ r

theorem pipeline_pairwise_ne (totals : List (ℚ × ℚ)) (eps minC : ℚ)
    (heps : 0 < eps) (hpos : ∀ x ∈ totals, 0 < x.2) :
    (sortAscByFst (truncateResults (sortDescBySnd (mergeTotals totals eps))
      minC)).Pairwise fun a b => a.1 ≠ b.1 := by
  have hsymm : ∀ {x y : ℚ × ℚ}, x.1 ≠ y.1 → y.1 ≠ x.1 := fun h => h.symm
  have h1 : (mergeTotals totals eps).Pairwise (fun a b => a.1 ≠ b.1) :=
    mergeGo_pairwise_ne eps heps totals hpos totals [] fun x hx => hx
  have h2 : (sortDescBySnd (mergeTotals totals eps)).Pairwise
      (fun a b : ℚ × ℚ => a.1 ≠ b.1) :=
    (List.Perm.pairwise_iff hsymm (List.perm_insertionSort _ _)).mpr h1
  have h3 : (truncateResults (sortDescBySnd (mergeTotals totals eps))
      minC).Pairwise (fun a b : ℚ × ℚ => a.1 ≠ b.1) :=
    List.Pairwise.sublist (truncGo_sublist minC _ 0) h2
  exact (List.Perm.pairwise_iff hsymm (List.perm_insertionSort _ _)).mpr h3

theorem calc_pattern_strict_sorted (c : Comp) (eps minC : ℚ) (heps : 0 < eps) :
    (calculate_analyte_isotopic_pattern c eps minC).Pairwise
      fun p q => p.1 < q.1 := by
  have hle := calc_pattern_sorted c eps minC
  have hne : (calculate_analyte_isotopic_pattern c eps minC).Pairwise
      fun p q => p.1 ≠ q.1 := by
    simp only [calculate_analyte_isotopic_pattern]
    refine pipeline_pairwise_ne _ eps minC heps ?_
    refine combineTotals_pos _ _ _ _ _ _ _ _ _ ?_ ?_ ?_ ?_ ?_ ?_ ?_ ?_ <;>
      exact elemental_pattern_pos _ _ _ (by norm_num) (by norm_num)
  exact (hle.and hne).imp fun h => lt_of_le_of_ne h.1 h.2

/-- C5 as amended: for the code's positive epsilon, once
`calculate_analyte_isotopic_pattern` completes the isotope sequence is
strictly ascending in exact mass and every retained fraction is
strictly greater than 0 (members of distinct clusters are separated by
at least epsilon from the earlier cluster's seed, so the
probability-weighted cluster means are strictly ordered); only the
claimed epsilon separation fails — two retained cluster means can lie
within epsilon of each other. -/
theorem claim_C5_amended_strict_sorted_positive (c : Comp) (eps minC : ℚ)
    (heps : 0 < eps) :
    (calculate_analyte_isotopic_pattern c eps minC).Pairwise
      (fun p q => p.1 < q.1) ∧
    ∀ y ∈ calculate_analyte_isotopic_pattern c eps minC, 0 < y.2 :=
  ⟨calc_pattern_strict_sorted c eps minC heps, calc_pattern_pos c eps minC⟩

/-- Witness for C5 as amended at a concrete input: the zero composition
with epsilon 1 yields the singleton envelope, which is strictly sorted,
and its sole fraction is positive. -/
theorem claim_C5_amended_strict_sorted_positive_witness :
    (calculate_analyte_isotopic_pattern comp0 1 (1/2)).Pairwise
      (fun p q => p.1 < q.1) ∧
    (0 : ℚ) < ((0 : ℚ), (1 : ℚ)).2 := by
  refine ⟨(claim_C5_amended_strict_sorted_positive comp0 1 (1/2) (by norm_num)).1, ?_⟩
  refine (claim_C5_amended_strict_sorted_positive comp0 1 (1/2) (by norm_num)).2 (0, 1) ?_
  rw [envelope_of_zero_counts comp0 1 (1/2) rfl rfl rfl rfl rfl]
  simp [comp0]
